import Mathlib

/-!
# A verification development for `bitset` (src/bitset/bit_set.go)

The Go package keeps a slice of `atomic.Uint32` words.  Here a word is a natural
number (the methods only ever store values below `2 ^ 32` and only ever look at the
low 32 bits), the slice is a `List Nat`, and every method is a function on that
list, executed by one goroutine at a time.  Indices and capacities have Go type
`int`, taken to be 64 bits wide; they are integers here and the one computation that
can leave the 64-bit range (`n + 31` in `New`) is wrapped explicitly.  The built-in
`make` is modelled with the two checks of the Go runtime, on the sign and on the size.  A run-time
panic is a value of `Panic`; a method that writes returns the bitmap as it is after
the call together with the panic, if any.
-/

namespace bitset

/-! ## Data model -/

/-- Run-time panics the Go runtime raises in this package. -/
inductive Panic
  | indexOutOfRange
  | negativeShift
  | makeLenOutOfRange
  deriving DecidableEq

deriving instance DecidableEq for Except

/-- The bitmap: `segments []atomic.Uint32`.  Every slice `New` makes has at most
`2 ^ 46` words, so `len(segments) * 32` and the indices `i*32 + j` stay within `int`;
they are exact integers here. -/
structure BitSet where
  segments : List Nat
  deriving DecidableEq

/-- What a writing method leaves behind: the bitmap after the call (also when the
call panicked) and whether it returned normally. -/
structure Outcome where
  bs : BitSet
  ret : Except Panic Unit
  deriving DecidableEq

/-- A Go slice value of type `[]int`: `none` is the nil slice, `some xs` a non-nil
slice holding `xs`. -/
abbrev IntSlice := Option (List Int)

/-- The elements of a slice; the nil slice has none. -/
def IntSlice.toList (s : IntSlice) : List Int := s.getD []

/-- The built-in `append(s, x)`: the result is never nil. -/
def IntSlice.append (s : IntSlice) (x : Int) : IntSlice := some (s.toList ++ [x])

/-! ## Machine arithmetic -/

/-- Largest value of Go's `int` on a 64-bit platform. -/
def maxInt : Int := 2 ^ 63 - 1

/-- The constant `maxAlloc` of the Go runtime on 64-bit Linux: the largest size, in
bytes, of one allocation.  The built-in `make` panics with `len out of range` when the
slice asked for would be larger. -/
def maxAlloc : Int := 2 ^ 48

/-- Two's-complement wrap-around of an `int` result. -/
def wrapInt (x : Int) : Int := (x + 2 ^ 63) % 2 ^ 64 - 2 ^ 63

/-- The shift `x << k` at type `uint32`, for a count `k` already known to be
non-negative. -/
def shl32 (x k : Nat) : Nat := (x <<< k) % 2 ^ 32

/-- The bit-clear operator `a &^ m` at type `uint32`. -/
def andNot32 (a m : Nat) : Nat := a &&& ((2 ^ 32 - 1) ^^^ m)

/-- The number of one bits of a `uint32`, as `bits.OnesCount32` of the Go standard
library returns it. -/
def OnesCount32 (x : Nat) : Int := ((List.range 32).filter (fun j => x.testBit j)).length

/-- The bounds check of the index expression `segments[segIdx]`; on success the
position as a natural number. -/
def index (segments : List Nat) (segIdx : Int) : Except Panic Nat :=
  if segIdx < 0 ∨ (segments.length : Int) ≤ segIdx then .error .indexOutOfRange
  else .ok segIdx.toNat

/-- The expression `1 << bitIdx` at type `uint32`; a negative count panics. -/
def mask (bitIdx : Int) : Except Panic Nat :=
  if bitIdx < 0 then .error .negativeShift else .ok (shl32 1 bitIdx.toNat)

/-! ## Atomic primitives on one word -/

/-- The method `Load` of `atomic.Uint32` on the word at position `w`. -/
def atomicLoad (segments : List Nat) (w : Nat) : Nat := segments.getD w 0

/-- The method `Store`. -/
def atomicStore (segments : List Nat) (w val : Nat) : List Nat := segments.set w val

/-- The method `Or`: fetch-or with `m`. -/
def atomicOr (segments : List Nat) (w m : Nat) : List Nat :=
  segments.set w (segments.getD w 0 ||| m)

/-- The method `CompareAndSwap`: stores `new` and reports `true` exactly when the
word still holds `old`. -/
def atomicCompareAndSwap (segments : List Nat) (w old new : Nat) : List Nat × Bool :=
  if segments.getD w 0 = old then (segments.set w new, true) else (segments, false)

/-! ## The methods of `BitSet` -/

/-- The constructor `New(n)`: `segmentCount := (n + 31) / 32`, then `make` of that
many zero words.  As `runtime.makeslice` does, `make` panics on a negative length and
on a length whose words, 4 bytes each, take more than `maxAlloc` bytes.  Running out
of memory below that limit is not modelled. -/
def New (n : Int) : Except Panic BitSet :=
  let segmentCount := (wrapInt (n + 31)).tdiv 32
  if segmentCount < 0 ∨ maxAlloc < 4 * segmentCount then .error .makeLenOutOfRange
  else .ok ⟨List.replicate segmentCount.toNat 0⟩

/-- The method `Set(i)`: the receiver `segments[segIdx]` is bounds-checked, the argument
`1 << bitIdx` is evaluated, then `Or` runs. -/
def Set (bs : BitSet) (i : Int) : Outcome :=
  let segIdx := i.tdiv 32
  let bitIdx := i.tmod 32
  match index bs.segments segIdx with
  | .error p => ⟨bs, .error p⟩
  | .ok w =>
    match mask bitIdx with
    | .error p => ⟨bs, .error p⟩
    | .ok m => ⟨⟨atomicOr bs.segments w m⟩, .ok ()⟩

/-- The retry loop of `Unset`: `fuel` bounds the number of iterations, `iters`
counts the iterations done so far.  The result is `none` when the loop is still
retrying after `fuel` iterations; otherwise the outcome and the total number of
iterations. -/
def unsetLoop (segIdx bitIdx : Int) : Nat → BitSet → Nat → Option (Outcome × Nat)
  | 0, _, _ => none
  | fuel + 1, bs, iters =>
    match index bs.segments segIdx with
    | .error p => some (⟨bs, .error p⟩, iters + 1)
    | .ok w =>
      let old := atomicLoad bs.segments w
      match mask bitIdx with
      | .error p => some (⟨bs, .error p⟩, iters + 1)
      | .ok m =>
        let new := andNot32 old m
        match atomicCompareAndSwap bs.segments w old new with
        | (segments, true) => some (⟨⟨segments⟩, .ok ()⟩, iters + 1)
        | (segments, false) => unsetLoop segIdx bitIdx fuel ⟨segments⟩ (iters + 1)

/-- The method `Unset(i)` with at most `fuel` iterations of its loop. -/
def Unset (fuel : Nat) (bs : BitSet) (i : Int) : Option Outcome :=
  let segIdx := i.tdiv 32
  let bitIdx := i.tmod 32
  (unsetLoop segIdx bitIdx fuel bs 0).map Prod.fst

/-- The method `IsSet(i)`: a load and a test; the bitmap is not written. -/
def IsSet (bs : BitSet) (i : Int) : Except Panic Bool :=
  let segIdx := i.tdiv 32
  let bitIdx := i.tmod 32
  match index bs.segments segIdx with
  | .error p => .error p
  | .ok w =>
    let val := atomicLoad bs.segments w
    match mask bitIdx with
    | .error p => .error p
    | .ok m => .ok (val &&& m != 0)

/-- The method `Clear()`: stores 0 into every word, in index order. -/
def Clear (bs : BitSet) : BitSet :=
  ⟨(List.range bs.segments.length).foldl (fun segments i => atomicStore segments i 0)
    bs.segments⟩

/-- The method `Len()`. -/
def Len (bs : BitSet) : Int := (bs.segments.length : Int) * 32

/-- The method `Count()`: the sum of the population counts of all words. -/
def Count (bs : BitSet) : Int :=
  (List.range bs.segments.length).foldl
    (fun total i =>
      let val := atomicLoad bs.segments i
      total + OnesCount32 val)
    0

/-- The inner loop of `ToSlice` for word `i` holding `val`. -/
def toSliceWord (val i : Nat) (result : IntSlice) : IntSlice :=
  (List.range 32).foldl
    (fun result j =>
      if val &&& shl32 1 j ≠ 0 then result.append ((i : Int) * 32 + (j : Int)) else result)
    result

/-- The method `ToSlice()`: `var result []int` starts as the nil slice. -/
def ToSlice (bs : BitSet) : IntSlice :=
  (List.range bs.segments.length).foldl
    (fun result i =>
      let val := atomicLoad bs.segments i
      if val = 0 then result else toSliceWord val i result)
    none

/-! ## Sequences of calls -/

/-- One call on a bitmap. -/
inductive Op
  | set (i : Int)
  | unset (i : Int)
  | clear
  | isSet (i : Int)
  | len
  | count
  | toSlice
  deriving DecidableEq

/-- The call's index, when it has one, lies in `[0, length)`. -/
def Op.inRange (length : Int) : Op → Prop
  | .set i => 0 ≤ i ∧ i < length
  | .unset i => 0 ≤ i ∧ i < length
  | .isSet i => 0 ≤ i ∧ i < length
  | _ => True

instance Op.decidableInRange (length : Int) (op : Op) : Decidable (op.inRange length) := by
  cases op <;> simp only [Op.inRange] <;> infer_instance

/-- Performs one call; the values returned by the reading methods are dropped. -/
def exec (fuel : Nat) (bs : BitSet) : Op → Option Outcome
  | .set i => some (Set bs i)
  | .unset i => Unset fuel bs i
  | .clear => some ⟨Clear bs, .ok ()⟩
  | .isSet i =>
    match IsSet bs i with
    | .ok _ => some ⟨bs, .ok ()⟩
    | .error p => some ⟨bs, .error p⟩
  | .len => some ⟨bs, .ok ()⟩
  | .count => some ⟨bs, .ok ()⟩
  | .toSlice => some ⟨bs, .ok ()⟩

/-- Performs the calls one after the other on a single goroutine; a panic ends the
run. -/
def run (fuel : Nat) : BitSet → List Op → Option Outcome
  | bs, [] => some ⟨bs, .ok ()⟩
  | bs, op :: ops =>
    match exec fuel bs op with
    | none => none
    | some ⟨bs', .ok _⟩ => run fuel bs' ops
    | some ⟨bs', .error p⟩ => some ⟨bs', .error p⟩

/-- Reference model of one call, in the words of the specification: the set of
indices currently set gains `i` on `Set(i)`, loses `i` on `Unset(i)`, and is emptied
by `Clear()`. -/
def refStep (s : Finset Int) : Op → Finset Int
  | .set i => insert i s
  | .unset i => s.erase i
  | .clear => ∅
  | _ => s

/-- Reference model of a sequence of calls, starting from the empty set. -/
def refModel (ops : List Op) : Finset Int := ops.foldl refStep ∅

/-! ## Abstraction used in the proofs -/

/-- Bit `k` of the word array: bit `k % 32` of word `k / 32`. -/
def bit (segments : List Nat) (k : Nat) : Bool :=
  (segments.getD (k / 32) 0).testBit (k % 32)

/-- The effect of one call on the value `b` of bit `k`. -/
def afterOp (op : Op) (k : Nat) (b : Bool) : Bool :=
  match op with
  | .set i => b || decide ((k : Int) = i)
  | .unset i => b && !decide ((k : Int) = i)
  | .clear => false
  | _ => b

/-- The set bits of the whole array, ascending. -/
def setBits (segments : List Nat) : List Nat :=
  (List.range (segments.length * 32)).filter (bit segments)

/-- A slice built by appending to the nil slice is nil exactly when it is empty. -/
def nilOrNonempty (s : IntSlice) : Prop := s = none ∨ s.toList ≠ []

/-- Every word is a `uint32`.  The Go type of a word guarantees this; here it is a
property of the list of natural numbers. -/
def wellFormed (bs : BitSet) : Prop := ∀ w ∈ bs.segments, w < 2 ^ 32

instance wellFormed.decidable (bs : BitSet) : Decidable (wellFormed bs) := by
  unfold wellFormed
  infer_instance

/-! ## Goroutines and interleavings

The operations of `sync/atomic` are sequentially consistent, so a concurrent execution
is an interleaving of the atomic operations of the goroutines.  What a goroutine does
between two atomic operations (index arithmetic, the bounds check, computing the mask)
touches no shared memory and is part of its next step. -/

/-- A call in progress on one goroutine, as seen between two atomic operations. -/
inductive Goroutine
  | callSet (i : Int)
  | callUnset (i : Int)
  | unsetLoaded (i : Int) (old : Nat)
  | returned
  | panicked (p : Panic)
  deriving DecidableEq

/-- The next atomic step of a goroutine on the shared words: the fetch-or of `Set`,
the load at the top of the loop of `Unset`, or its compare-and-swap, which on failure
sends the goroutine back to the top of the loop. -/
def Goroutine.step (segments : List Nat) : Goroutine → List Nat × Goroutine
  | .callSet i =>
    match index segments (i.tdiv 32) with
    | .error p => (segments, .panicked p)
    | .ok w =>
      match mask (i.tmod 32) with
      | .error p => (segments, .panicked p)
      | .ok m => (atomicOr segments w m, .returned)
  | .callUnset i =>
    match index segments (i.tdiv 32) with
    | .error p => (segments, .panicked p)
    | .ok w => (segments, .unsetLoaded i (atomicLoad segments w))
  | .unsetLoaded i old =>
    match index segments (i.tdiv 32) with
    | .error p => (segments, .panicked p)
    | .ok w =>
      match mask (i.tmod 32) with
      | .error p => (segments, .panicked p)
      | .ok m =>
        match atomicCompareAndSwap segments w old (andNot32 old m) with
        | (segments', true) => (segments', .returned)
        | (segments', false) => (segments', .callUnset i)
  | .returned => (segments, .returned)
  | .panicked p => (segments, .panicked p)

/-- Runs the goroutines under a schedule; each entry of the schedule names the
goroutine that takes the next atomic step. -/
def interleave : List Nat → List Nat → List Goroutine → List Nat × List Goroutine
  | [], segments, gs => (segments, gs)
  | t :: sched, segments, gs =>
    match gs[t]? with
    | none => interleave sched segments gs
    | some g => interleave sched (g.step segments).1 (gs.set t (g.step segments).2)

/-- The goroutine that has just been handed a call. -/
def Op.start : Op → Goroutine
  | .set i => .callSet i
  | .unset i => .callUnset i
  | _ => .returned

/-- The index a writing call is about. -/
def Op.target : Op → Option Int
  | .set i => some i
  | .unset i => some i
  | _ => none

/-- The call is `Set` or `Unset`. -/
def Op.isWrite : Op → Bool
  | .set _ => true
  | .unset _ => true
  | _ => false

/-- The goroutine is somewhere inside the call `op`, or has returned from it. -/
def Goroutine.runs (op : Op) (g : Goroutine) : Prop :=
  g = .returned ∨
    match op with
    | .set i => g = .callSet i
    | .unset i => g = .callUnset i ∨ ∃ old, g = .unsetLoaded i old
    | _ => False

/-- The invariant of an interleaved execution of `calls`, started on the words
`segments0`: the word count is fixed, every goroutine is inside its call or has
returned, the bit a call is about has the value the call gives it once the call has
returned and its first value before, and all other bits have their first value. -/
def Inv (segments0 : List Nat) (calls : List Op) (segments : List Nat)
    (gs : List Goroutine) : Prop :=
  segments.length = segments0.length
  ∧ gs.length = calls.length
  ∧ (wellFormed ⟨segments0⟩ → wellFormed ⟨segments⟩)
  ∧ (∀ (t : Nat) (op : Op), calls[t]? = some op →
      ∃ g : Goroutine, gs[t]? = some g ∧ g.runs op
        ∧ ∀ i, op.target = some i →
            bit segments i.toNat
              = if g = .returned then afterOp op i.toNat (bit segments0 i.toNat)
                else bit segments0 i.toNat)
  ∧ (∀ k : Nat, (∀ op ∈ calls, op.target ≠ some (k : Int)) →
      bit segments k = bit segments0 k)

/-! ## Machine arithmetic and single words -/

theorem shl32_one {k : Nat} (hk : k < 32) : shl32 1 k = 2 ^ k := by
  unfold shl32
  rw [Nat.one_shiftLeft]
  exact Nat.mod_eq_of_lt (Nat.pow_lt_pow_right (by norm_num) hk)

theorem and_two_pow (v j : Nat) : v &&& 2 ^ j = if v.testBit j then 2 ^ j else 0 := by
  apply Nat.eq_of_testBit_eq
  intro i
  by_cases hv : v.testBit j
  · by_cases hji : j = i
    · subst hji; simp [hv, Nat.testBit_two_pow_self]
    · simp [hv, Nat.testBit_two_pow, hji]
  · by_cases hji : j = i
    · subst hji; simp [hv]
    · simp [hv, Nat.testBit_two_pow, hji]

theorem and_two_pow_ne_zero (v j : Nat) : (v &&& 2 ^ j != 0) = v.testBit j := by
  rw [and_two_pow]
  cases v.testBit j <;> simp

theorem index_inRange {bs : BitSet} {i : Int} (h0 : 0 ≤ i) (h1 : i < Len bs) :
    index bs.segments (i.tdiv 32) = .ok (i.toNat / 32) ∧ i.toNat / 32 < bs.segments.length := by
  obtain ⟨k, rfl⟩ := Int.eq_ofNat_of_zero_le h0
  have hk : k / 32 < bs.segments.length := by
    unfold Len at h1
    omega
  have e : (k : Int).tdiv 32 = ((k / 32 : Nat) : Int) := (Int.ofNat_tdiv k 32).symm
  refine ⟨?_, by simpa using hk⟩
  rw [e]
  unfold index
  rw [if_neg (by omega)]
  simp only [Int.toNat_ofNat]

theorem mask_nonneg {i : Int} (h0 : 0 ≤ i) : mask (i.tmod 32) = .ok (2 ^ (i.toNat % 32)) := by
  obtain ⟨k, rfl⟩ := Int.eq_ofNat_of_zero_le h0
  have h32 : (32 : Int) = ((32 : Nat) : Int) := rfl
  rw [h32, ← Int.ofNat_tmod]
  unfold mask
  rw [if_neg (by omega)]
  simp only [Int.toNat_ofNat]
  rw [shl32_one (Nat.mod_lt _ (by norm_num))]

theorem getD_set_self {l : List Nat} {w : Nat} (h : w < l.length) (v : Nat) :
    (l.set w v).getD w 0 = v := by
  simp [List.getElem?_set, h]

theorem getD_set_other {l : List Nat} {w u : Nat} (h : w ≠ u) (v : Nat) :
    (l.set w v).getD u 0 = l.getD u 0 := by
  simp [List.getElem?_set_ne h]

theorem testBit_andNot32 (a : Nat) {b j : Nat} (hj : j < 32) :
    (andNot32 a (2 ^ b)).testBit j = (a.testBit j && !decide (b = j)) := by
  unfold andNot32
  rw [Nat.testBit_and, Nat.testBit_xor, Nat.testBit_two_pow_sub_one, Nat.testBit_two_pow]
  simp [hj]

theorem bit_atomicOr {segs : List Nat} {k : Nat} (h : k / 32 < segs.length) (k' : Nat) :
    bit (atomicOr segs (k / 32) (2 ^ (k % 32))) k' = (bit segs k' || decide (k' = k)) := by
  unfold bit atomicOr
  by_cases hw : k / 32 = k' / 32
  · rw [← hw, getD_set_self h, Nat.testBit_or, Nat.testBit_two_pow]
    congr 1
    apply decide_eq_decide.mpr
    omega
  · rw [getD_set_other hw]
    have : k' ≠ k := by rintro rfl; exact hw rfl
    simp [this]

theorem bit_set_andNot32 {segs : List Nat} {k : Nat} (h : k / 32 < segs.length) (k' : Nat) :
    bit (segs.set (k / 32) (andNot32 (segs.getD (k / 32) 0) (2 ^ (k % 32)))) k'
      = (bit segs k' && !decide (k' = k)) := by
  unfold bit
  by_cases hw : k / 32 = k' / 32
  · rw [← hw, getD_set_self h, testBit_andNot32 _ (Nat.mod_lt _ (by norm_num))]
    congr 2
    apply decide_eq_decide.mpr
    omega
  · rw [getD_set_other hw]
    have : k' ≠ k := by rintro rfl; exact hw rfl
    simp [this]

theorem IsSet_inRange {bs : BitSet} {i : Int} (h0 : 0 ≤ i) (h1 : i < Len bs) :
    IsSet bs i = .ok (bit bs.segments i.toNat) := by
  unfold IsSet
  simp only [(index_inRange h0 h1).1, mask_nonneg h0, atomicLoad, and_two_pow_ne_zero]
  rfl

theorem Set_inRange {bs : BitSet} {i : Int} (h0 : 0 ≤ i) (h1 : i < Len bs) :
    Set bs i = ⟨⟨atomicOr bs.segments (i.toNat / 32) (2 ^ (i.toNat % 32))⟩, .ok ()⟩ := by
  unfold Set
  simp only [(index_inRange h0 h1).1, mask_nonneg h0]

theorem unsetLoop_inRange {bs : BitSet} {i : Int} (h0 : 0 ≤ i) (h1 : i < Len bs)
    (fuel iters : Nat) :
    unsetLoop (i.tdiv 32) (i.tmod 32) (fuel + 1) bs iters
      = some (⟨⟨bs.segments.set (i.toNat / 32)
            (andNot32 (bs.segments.getD (i.toNat / 32) 0) (2 ^ (i.toNat % 32)))⟩, .ok ()⟩,
          iters + 1) := by
  unfold unsetLoop
  simp only [(index_inRange h0 h1).1, mask_nonneg h0, atomicLoad, atomicCompareAndSwap, if_true]

theorem Unset_inRange {bs : BitSet} {i : Int} (h0 : 0 ≤ i) (h1 : i < Len bs)
    {fuel : Nat} (hf : 0 < fuel) :
    Unset fuel bs i
      = some ⟨⟨bs.segments.set (i.toNat / 32)
            (andNot32 (bs.segments.getD (i.toNat / 32) 0) (2 ^ (i.toNat % 32)))⟩, .ok ()⟩ := by
  obtain ⟨f, rfl⟩ : ∃ f, fuel = f + 1 := ⟨fuel - 1, by omega⟩
  unfold Unset
  simp only [unsetLoop_inRange h0 h1, Option.map_some']

/-! ## Whole-bitmap lemmas -/

theorem foldl_store_spec (segs : List Nat) (n j : Nat) :
    ((List.range n).foldl (fun segments i => atomicStore segments i 0) segs).length = segs.length
    ∧ ((List.range n).foldl (fun segments i => atomicStore segments i 0) segs)[j]?
      = if j < n then (segs[j]?).map (fun _ => 0) else segs[j]? := by
  simp only [atomicStore]
  induction n with
  | zero => simp
  | succ n ih =>
    rw [List.range_succ, List.foldl_append]
    simp only [List.foldl_cons, List.foldl_nil, List.length_set]
    refine ⟨ih.1, ?_⟩
    rw [List.getElem?_set, ih.1]
    by_cases hj : n = j
    · subst hj
      by_cases hn : n < segs.length
      · simp [hn]
      · simp [hn, List.getElem?_eq_none (Nat.le_of_not_lt hn)]
    · rw [if_neg hj, ih.2]
      by_cases h1 : j < n
      · simp [h1, Nat.lt_succ_of_lt h1]
      · have : ¬ j < n + 1 := by omega
        simp [h1, this]

theorem Clear_length (bs : BitSet) : (Clear bs).segments.length = bs.segments.length :=
  (foldl_store_spec bs.segments bs.segments.length 0).1

theorem Clear_getD (bs : BitSet) (j : Nat) : (Clear bs).segments.getD j 0 = 0 := by
  unfold Clear
  simp only [List.getD_eq_getElem?_getD, (foldl_store_spec bs.segments bs.segments.length j).2]
  by_cases hj : j < bs.segments.length
  · simp [hj]
  · simp [hj, List.getElem?_eq_none (Nat.le_of_not_lt hj)]

theorem Clear_eq (bs : BitSet) : Clear bs = ⟨List.replicate bs.segments.length 0⟩ := by
  have h : (Clear bs).segments = List.replicate bs.segments.length 0 := by
    rw [List.eq_replicate_iff]
    refine ⟨Clear_length bs, ?_⟩
    intro b hb
    obtain ⟨j, hj, rfl⟩ := List.getElem_of_mem hb
    rw [← List.getD_eq_getElem _ 0 hj]
    exact Clear_getD bs j
  cases hc : Clear bs
  rw [hc] at h
  simp at h
  simp [h]

theorem bit_Clear (bs : BitSet) (k : Nat) : bit (Clear bs).segments k = false := by
  unfold bit
  rw [Clear_getD]
  simp

theorem atomicOr_length (segs : List Nat) (w m : Nat) :
    (atomicOr segs w m).length = segs.length := by
  simp [atomicOr]

theorem exec_inRange {fuel : Nat} {bs : BitSet} {op : Op}
    (hf : (∃ i, op = Op.unset i) → 0 < fuel) (h : op.inRange (Len bs)) :
    ∃ bs', exec fuel bs op = some ⟨bs', .ok ()⟩
      ∧ bs'.segments.length = bs.segments.length
      ∧ ∀ k, bit bs'.segments k = afterOp op k (bit bs.segments k) := by
  cases op with
  | set i =>
    obtain ⟨h0, h1⟩ := h
    refine ⟨⟨atomicOr bs.segments (i.toNat / 32) (2 ^ (i.toNat % 32))⟩,
      by simp only [exec, Set_inRange h0 h1], atomicOr_length _ _ _, ?_⟩
    intro k
    obtain ⟨n, rfl⟩ := Int.eq_ofNat_of_zero_le h0
    simp only [Int.toNat_ofNat, afterOp, Nat.cast_inj]
    exact bit_atomicOr (by simpa using (index_inRange h0 h1).2) k
  | unset i =>
    obtain ⟨h0, h1⟩ := h
    refine ⟨⟨bs.segments.set (i.toNat / 32)
        (andNot32 (bs.segments.getD (i.toNat / 32) 0) (2 ^ (i.toNat % 32)))⟩,
      by simp only [exec, Unset_inRange h0 h1 (hf ⟨i, rfl⟩)], by simp, ?_⟩
    intro k
    obtain ⟨n, rfl⟩ := Int.eq_ofNat_of_zero_le h0
    simp only [Int.toNat_ofNat, afterOp, Nat.cast_inj]
    exact bit_set_andNot32 (by simpa using (index_inRange h0 h1).2) k
  | clear =>
    exact ⟨_, rfl, Clear_length bs, fun k => by simp [afterOp, bit_Clear]⟩
  | isSet i =>
    obtain ⟨h0, h1⟩ := h
    exact ⟨bs, by simp only [exec, IsSet_inRange h0 h1], rfl, fun k => rfl⟩
  | len => exact ⟨bs, rfl, rfl, fun k => rfl⟩
  | count => exact ⟨bs, rfl, rfl, fun k => rfl⟩
  | toSlice => exact ⟨bs, rfl, rfl, fun k => rfl⟩

theorem run_inRange {fuel : Nat} (ops : List Op) :
    ∀ bs : BitSet, ((∃ i, Op.unset i ∈ ops) → 0 < fuel) →
    (∀ op ∈ ops, op.inRange (Len bs)) →
    ∃ bs', run fuel bs ops = some ⟨bs', .ok ()⟩
      ∧ bs'.segments.length = bs.segments.length
      ∧ ∀ k, bit bs'.segments k = ops.foldl (fun b op => afterOp op k b) (bit bs.segments k) := by
  induction ops with
  | nil => intro bs _ _; exact ⟨bs, rfl, rfl, fun k => rfl⟩
  | cons op ops ih =>
    intro bs hf h
    obtain ⟨bs1, e1, l1, b1⟩ := exec_inRange
      (fun ⟨i, hi⟩ => hf ⟨i, hi ▸ List.mem_cons_self _ _⟩) (h op (List.mem_cons_self _ _))
    have hlen : Len bs1 = Len bs := by simp [Len, l1]
    obtain ⟨bs2, e2, l2, b2⟩ := ih bs1
      (fun ⟨i, hi⟩ => hf ⟨i, List.mem_cons_of_mem _ hi⟩)
      (fun o ho => by rw [hlen]; exact h o (List.mem_cons_of_mem _ ho))
    refine ⟨bs2, ?_, l2.trans l1, ?_⟩
    · simp only [run, e1, e2]
    · intro k
      rw [b2 k, b1 k]
      rfl

/-! ## Enumeration and population count -/

theorem bit_block (segs : List Nat) (n : Nat) {j : Nat} (hj : j < 32) :
    bit segs (n * 32 + j) = (segs.getD n 0).testBit j := by
  unfold bit
  have h1 : (n * 32 + j) / 32 = n := by omega
  have h2 : (n * 32 + j) % 32 = j := by omega
  rw [h1, h2]

theorem filter_block (segs : List Nat) (n : Nat) :
    ((List.range 32).map (n * 32 + ·)).filter (bit segs)
      = ((List.range 32).filter (fun j => (segs.getD n 0).testBit j)).map (n * 32 + ·) := by
  rw [List.filter_map]
  congr 1
  apply List.filter_congr
  intro j hj
  exact bit_block segs n (List.mem_range.mp hj)

theorem filter_range_succ_block (segs : List Nat) (n : Nat) :
    (List.range ((n + 1) * 32)).filter (bit segs)
      = (List.range (n * 32)).filter (bit segs)
        ++ ((List.range 32).filter (fun j => (segs.getD n 0).testBit j)).map (n * 32 + ·) := by
  have h : (n + 1) * 32 = n * 32 + 32 := by ring
  rw [h, List.range_add, List.filter_append, filter_block]

theorem toList_append (s : IntSlice) (x : Int) : (s.append x).toList = s.toList ++ [x] := rfl

theorem toSliceWord_upto (val i : Nat) (r : IntSlice) (m : Nat) (hm : m ≤ 32) :
    ((List.range m).foldl
      (fun result j =>
        if val &&& shl32 1 j ≠ 0 then result.append ((i : Int) * 32 + (j : Int)) else result)
      r).toList
      = r.toList ++ ((List.range m).filter (fun j => val.testBit j)).map
          (fun j : Nat => (i : Int) * 32 + (j : Int)) := by
  induction m with
  | zero => simp
  | succ m ih =>
    rw [List.range_succ, List.foldl_append, List.filter_append, List.map_append,
      ← List.append_assoc, ← ih (by omega)]
    simp only [List.foldl_cons, List.foldl_nil]
    rw [shl32_one (by omega : m < 32)]
    have hb := and_two_pow_ne_zero val m
    by_cases ht : val.testBit m
    · have hne : val &&& 2 ^ m ≠ 0 := by simpa [ht] using hb
      rw [if_pos hne, toList_append]
      simp [ht]
    · have he : ¬ (val &&& 2 ^ m ≠ 0) := by simpa [ht] using hb
      rw [if_neg he]
      simp [ht]

theorem toSliceWord_toList (val i : Nat) (r : IntSlice) :
    (toSliceWord val i r).toList
      = r.toList ++ ((List.range 32).filter (fun j => val.testBit j)).map
          (fun j : Nat => (i : Int) * 32 + (j : Int)) :=
  toSliceWord_upto val i r 32 (Nat.le_refl _)

theorem ToSlice_upto (segs : List Nat) (n : Nat) :
    ((List.range n).foldl
      (fun result i =>
        let val := atomicLoad segs i
        if val = 0 then result else toSliceWord val i result)
      none).toList
      = ((List.range (n * 32)).filter (bit segs)).map (fun k : Nat => (k : Int)) := by
  induction n with
  | zero => simp [IntSlice.toList]
  | succ n ih =>
    rw [List.range_succ, List.foldl_append, filter_range_succ_block, List.map_append, ← ih]
    simp only [List.foldl_cons, List.foldl_nil, atomicLoad]
    by_cases hv : segs.getD n 0 = 0
    · rw [if_pos hv, hv]
      simp
    · rw [if_neg hv, toSliceWord_toList]
      congr 1
      rw [List.map_map]
      apply List.map_congr_left
      intro j _
      simp

theorem ToSlice_toList (bs : BitSet) :
    (ToSlice bs).toList = (setBits bs.segments).map (fun k : Nat => (k : Int)) :=
  ToSlice_upto bs.segments bs.segments.length

theorem OnesCount32_eq (x : Nat) :
    OnesCount32 x = (((List.range 32).filter (fun j => x.testBit j)).length : Int) := rfl

theorem Count_upto (segs : List Nat) (n : Nat) :
    (List.range n).foldl
      (fun total i =>
        let val := atomicLoad segs i
        total + OnesCount32 val)
      0
      = (((List.range (n * 32)).filter (bit segs)).length : Int) := by
  induction n with
  | zero => simp
  | succ n ih =>
    rw [List.range_succ, List.foldl_append, filter_range_succ_block, ih]
    simp [atomicLoad, OnesCount32_eq]

theorem Count_eq (bs : BitSet) : Count bs = ((setBits bs.segments).length : Int) :=
  Count_upto bs.segments bs.segments.length

theorem nilOrNonempty_foldl {α : Type} (f : IntSlice → α → IntSlice)
    (hf : ∀ s a, nilOrNonempty s → nilOrNonempty (f s a)) (l : List α) :
    ∀ s, nilOrNonempty s → nilOrNonempty (l.foldl f s) := by
  induction l with
  | nil => intro s hs; exact hs
  | cons a l ih => intro s hs; exact ih _ (hf s a hs)

theorem nilOrNonempty_toSliceWord (val i : Nat) (s : IntSlice) (hs : nilOrNonempty s) :
    nilOrNonempty (toSliceWord val i s) := by
  unfold toSliceWord
  apply nilOrNonempty_foldl _ _ _ s hs
  intro s j _
  split
  · right; simp [toList_append]
  · assumption

theorem nilOrNonempty_ToSlice (bs : BitSet) : nilOrNonempty (ToSlice bs) := by
  unfold ToSlice
  apply nilOrNonempty_foldl _ _ _ none (Or.inl rfl)
  intro s i hs
  simp only
  split
  · exact hs
  · exact nilOrNonempty_toSliceWord _ _ _ hs

theorem ToSlice_eq_none_iff (bs : BitSet) : ToSlice bs = none ↔ setBits bs.segments = [] := by
  constructor
  · intro h
    have := ToSlice_toList bs
    rw [h] at this
    have h2 : (setBits bs.segments).map (fun k : Nat => (k : Int)) = [] := by
      rw [← this]; rfl
    exact List.map_eq_nil_iff.mp h2
  · intro h
    rcases nilOrNonempty_ToSlice bs with h1 | h1
    · exact h1
    · rw [ToSlice_toList, h] at h1
      simp at h1

/-! ## Sequences of calls -/

theorem foldl_afterOp_true (k : Nat) (ops : List Op)
    (hu : Op.unset (k : Int) ∉ ops) (hc : Op.clear ∉ ops) :
    ops.foldl (fun b op => afterOp op k b) true = true := by
  induction ops with
  | nil => rfl
  | cons op ops ih =>
    have hu' : Op.unset (k : Int) ∉ ops := fun h => hu (List.mem_cons_of_mem _ h)
    have hc' : Op.clear ∉ ops := fun h => hc (List.mem_cons_of_mem _ h)
    have h1 : afterOp op k true = true := by
      cases op with
      | unset i =>
        have : (k : Int) ≠ i := by
          rintro rfl
          exact hu (List.mem_cons_self _ _)
        simp [afterOp, this]
      | clear => exact absurd (List.mem_cons_self _ _) hc
      | _ => simp [afterOp]
    rw [List.foldl_cons, h1]
    exact ih hu' hc'

theorem Len_eq_of_length {a b : BitSet} (h : a.segments.length = b.segments.length) :
    Len a = Len b := by
  simp [Len, h]

/-! ## Construction -/

theorem wrapInt_of_inRange {x : Int} (h0 : -2 ^ 63 ≤ x) (h1 : x < 2 ^ 63) : wrapInt x = x := by
  unfold wrapInt
  omega

theorem tdiv_tmod_neg {j : Int} (h : j < 0) :
    j.tdiv 32 = -((-j) / 32) ∧ j.tmod 32 = -((-j) % 32) := by
  obtain ⟨m, rfl⟩ : ∃ m : Int, j = -m := ⟨-j, by omega⟩
  have hm : 0 ≤ m := by omega
  have h1 : (-m).tdiv 32 = -(m / 32) := by
    rw [Int.neg_tdiv, Int.tdiv_eq_ediv hm (by norm_num)]
  refine ⟨by rw [h1, neg_neg], ?_⟩
  rw [Int.tmod_def, h1, neg_neg]
  omega

theorem New_inRange {n : Int} (h0 : 0 ≤ n) (h1 : n ≤ 2 ^ 51) :
    New n = .ok ⟨List.replicate ((n + 31) / 32).toNat 0⟩ := by
  unfold New
  rw [wrapInt_of_inRange (by omega) (by omega),
    Int.tdiv_eq_ediv (by omega) (by norm_num)]
  simp only [maxAlloc]
  rw [if_neg (by omega)]

theorem New_overflow {n : Int} (h0 : maxInt - 31 < n) (h1 : n ≤ maxInt) :
    New n = .error .makeLenOutOfRange := by
  unfold maxInt at h0 h1
  have hw : wrapInt (n + 31) = n + 31 - 2 ^ 64 := by
    unfold wrapInt
    omega
  unfold New
  rw [hw, (tdiv_tmod_neg (by omega : n + 31 - 2 ^ 64 < 0)).1]
  simp only
  rw [if_pos (Or.inl (by omega))]

theorem New_too_large {n : Int} (h0 : 2 ^ 51 < n) (h1 : n ≤ maxInt) :
    New n = .error .makeLenOutOfRange := by
  by_cases h : n ≤ maxInt - 31
  · unfold maxInt at h
    unfold New
    rw [wrapInt_of_inRange (by omega) (by omega),
      Int.tdiv_eq_ediv (by omega) (by norm_num)]
    simp only [maxAlloc]
    rw [if_pos (Or.inr (by omega))]
  · exact New_overflow (by omega) h1

theorem New_ok_length {n : Int} {b : BitSet} (h : New n = .ok b) :
    b.segments.length ≤ 2 ^ 46 := by
  unfold New at h
  simp only [maxAlloc] at h
  split at h
  · cases h
  · rename_i hc
    cases h
    simp only [List.length_replicate]
    omega

theorem bit_replicate_zero (c k : Nat) : bit (List.replicate c 0) k = false := by
  unfold bit
  have : (List.replicate c 0).getD (k / 32) 0 = 0 := by
    simp only [List.getD_eq_getElem?_getD, List.getElem?_replicate]
    split <;> rfl
  rw [this]
  simp

theorem New_ok_bits {n : Int} {b : BitSet} (h : New n = .ok b) (k : Nat) :
    bit b.segments k = false := by
  unfold New at h
  simp only at h
  split at h
  · cases h
  · cases h
    exact bit_replicate_zero _ k

/-! ## Indices out of range -/

theorem outOfRange_cases {bs : BitSet} {i : Int} (h : i < 0 ∨ Len bs ≤ i) :
    index bs.segments (i.tdiv 32) = .error .indexOutOfRange
    ∨ (index bs.segments (i.tdiv 32) = .ok 0 ∧ mask (i.tmod 32) = .error .negativeShift
        ∧ -32 < i ∧ i < 0) := by
  unfold Len at h
  by_cases hneg : i < 0
  · obtain ⟨hd, hm⟩ := tdiv_tmod_neg hneg
    by_cases hsmall : i ≤ -32 ∨ bs.segments.length = 0
    · left
      unfold index
      rw [if_pos (by rw [hd]; omega)]
    · right
      have hz : i.tdiv 32 = 0 := by rw [hd]; omega
      refine ⟨?_, ?_, by omega, hneg⟩
      · unfold index
        rw [hz, if_neg (by omega)]
        rfl
      · unfold mask
        rw [if_pos (by rw [hm]; omega)]
  · left
    have h0 : 0 ≤ i := by omega
    unfold index
    rw [Int.tdiv_eq_ediv h0 (by norm_num), if_pos (by omega)]

theorem outOfRange_panics (fuel : Nat) {bs : BitSet} {i : Int} (h : i < 0 ∨ Len bs ≤ i) :
    ∃ p, Set bs i = ⟨bs, .error p⟩ ∧ Unset (fuel + 1) bs i = some ⟨bs, .error p⟩
      ∧ IsSet bs i = .error p
      ∧ (p = .indexOutOfRange ∨ (p = .negativeShift ∧ -32 < i ∧ i < 0)) := by
  rcases outOfRange_cases h with hi | ⟨hi, hm, hr⟩
  · exact ⟨.indexOutOfRange, by simp only [Set, hi], by simp [Unset, unsetLoop, hi],
      by simp only [IsSet, hi], Or.inl rfl⟩
  · exact ⟨.negativeShift, by simp only [Set, hi, hm], by simp [Unset, unsetLoop, hi, hm],
      by simp only [IsSet, hi, hm], Or.inr ⟨rfl, hr⟩⟩

/-! ## The reference model -/

theorem afterOp_refStep (k : Nat) (op : Op) (s : Finset Int) :
    afterOp op k (decide ((k : Int) ∈ s)) = decide ((k : Int) ∈ refStep s op) := by
  cases op <;>
    simp [afterOp, refStep, Finset.mem_insert, Finset.mem_erase, Bool.or_comm, Bool.and_comm]

theorem foldl_afterOp_refStep (k : Nat) (ops : List Op) :
    ∀ s : Finset Int, ops.foldl (fun b op => afterOp op k b) (decide ((k : Int) ∈ s))
      = decide ((k : Int) ∈ ops.foldl refStep s) := by
  induction ops with
  | nil => intro s; rfl
  | cons op ops ih =>
    intro s
    rw [List.foldl_cons, List.foldl_cons, afterOp_refStep, ih]

theorem mem_foldl_refStep {j : Int} (ops : List Op) :
    ∀ s : Finset Int, j ∈ ops.foldl refStep s → j ∈ s ∨ Op.set j ∈ ops := by
  induction ops with
  | nil => intro s h; exact Or.inl h
  | cons op ops ih =>
    intro s h
    rcases ih _ h with h1 | h1
    · cases op with
      | set i =>
        rcases Finset.mem_insert.mp h1 with rfl | h2
        · exact Or.inr (List.mem_cons_self _ _)
        · exact Or.inl h2
      | unset i => exact Or.inl (Finset.mem_of_mem_erase h1)
      | clear => exact absurd h1 (Finset.not_mem_empty _)
      | isSet i => exact Or.inl h1
      | len => exact Or.inl h1
      | count => exact Or.inl h1
      | toSlice => exact Or.inl h1
    · exact Or.inr (List.mem_cons_of_mem _ h1)

theorem run_from_New {fuel : Nat} {n : Int} {b0 : BitSet} (hn : New n = .ok b0)
    (ops : List Op) (hf : (∃ i, Op.unset i ∈ ops) → 0 < fuel)
    (hr : ∀ op ∈ ops, op.inRange (Len b0)) :
    ∃ bs, run fuel b0 ops = some ⟨bs, .ok ()⟩
      ∧ bs.segments.length = b0.segments.length
      ∧ ∀ k : Nat, bit bs.segments k = decide ((k : Int) ∈ refModel ops) := by
  obtain ⟨bs, e, len, hb⟩ := run_inRange ops b0 hf hr
  refine ⟨bs, e, len, fun k => ?_⟩
  rw [hb k, New_ok_bits hn k]
  have := foldl_afterOp_refStep k ops ∅
  simpa [refModel] using this

/-! ## Membership in the enumeration -/

theorem bit_lt {segs : List Nat} {k : Nat} (h : bit segs k = true) : k < segs.length * 32 := by
  by_contra hk
  have : segs.getD (k / 32) 0 = 0 := List.getD_eq_default _ _ (by omega)
  unfold bit at h
  rw [this] at h
  simp at h

theorem mem_setBits {segs : List Nat} {k : Nat} : k ∈ setBits segs ↔ bit segs k = true := by
  unfold setBits
  rw [List.mem_filter, List.mem_range]
  exact ⟨fun h => h.2, fun h => ⟨bit_lt h, h⟩⟩

theorem setBits_sorted (segs : List Nat) : (setBits segs).Sorted (· < ·) :=
  (List.sorted_lt_range _).filter _

theorem ToSlice_sorted (bs : BitSet) : ((ToSlice bs).toList).Sorted (· < ·) := by
  rw [ToSlice_toList]
  exact List.Pairwise.map _ (fun a b h => Int.ofNat_lt.mpr h) (setBits_sorted bs.segments)

theorem mem_ToSlice {bs : BitSet} {j : Int} :
    j ∈ (ToSlice bs).toList ↔ ∃ k : Nat, (k : Int) = j ∧ bit bs.segments k = true := by
  rw [ToSlice_toList, List.mem_map]
  constructor
  · rintro ⟨k, hk, rfl⟩
    exact ⟨k, rfl, mem_setBits.mp hk⟩
  · rintro ⟨k, rfl, hk⟩
    exact ⟨k, mem_setBits.mpr hk, rfl⟩

theorem IsSet_eq_ok_true_iff {bs : BitSet} {j : Int} :
    IsSet bs j = .ok true ↔ ∃ k : Nat, (k : Int) = j ∧ bit bs.segments k = true := by
  constructor
  · intro h
    by_cases hr : j < 0 ∨ Len bs ≤ j
    · obtain ⟨p, _, _, hp, _⟩ := outOfRange_panics 0 hr
      rw [hp] at h
      cases h
    · have h0 : 0 ≤ j := by omega
      have h1 : j < Len bs := by omega
      rw [IsSet_inRange h0 h1] at h
      refine ⟨j.toNat, Int.toNat_of_nonneg h0, ?_⟩
      injection h
  · rintro ⟨k, rfl, hk⟩
    have h1 : (k : Int) < Len bs := by
      have := bit_lt hk
      unfold Len
      omega
    rw [IsSet_inRange (Int.ofNat_nonneg k) h1, Int.toNat_ofNat, hk]

/-! ## The enumeration after a run from a fresh bitmap -/

theorem Count_congr {a b : BitSet} (hl : a.segments.length = b.segments.length)
    (hb : ∀ k, bit a.segments k = bit b.segments k) : Count a = Count b := by
  rw [Count_eq, Count_eq]
  unfold setBits
  rw [hl]
  congr 2
  apply List.filter_congr
  intro k _
  exact hb k

theorem ToSlice_length (bs : BitSet) : (((ToSlice bs).toList).length : Int) = Count bs := by
  rw [ToSlice_toList, Count_eq, List.length_map]

theorem mem_refModel_map_set (L : List Int) (j : Int) :
    j ∈ refModel (L.map Op.set) ↔ j ∈ L := by
  have key : ∀ s : Finset Int, j ∈ (L.map Op.set).foldl refStep s ↔ j ∈ s ∨ j ∈ L := by
    induction L with
    | nil => intro s; simp
    | cons i L ih =>
      intro s
      rw [List.map_cons, List.foldl_cons, ih]
      simp only [refStep, Finset.mem_insert, List.mem_cons]
      tauto
  simpa [refModel] using key ∅

theorem toSlice_after_run {fuel : Nat} {n : Int} {b0 : BitSet} (hn : New n = .ok b0)
    (ops : List Op) (hf : (∃ i, Op.unset i ∈ ops) → 0 < fuel)
    (hr : ∀ op ∈ ops, op.inRange (Len b0)) :
    ∃ bs, run fuel b0 ops = some ⟨bs, .ok ()⟩
      ∧ bs.segments.length = b0.segments.length
      ∧ (ToSlice bs).toList = (refModel ops).sort (· ≤ ·)
      ∧ ((ToSlice bs).toList).Sorted (· < ·)
      ∧ ((ToSlice bs).toList).Nodup
      ∧ (∀ j, j ∈ (ToSlice bs).toList ↔ j ∈ refModel ops)
      ∧ (∀ j, j ∈ (ToSlice bs).toList ↔ IsSet bs j = .ok true)
      ∧ (((ToSlice bs).toList).length : Int) = Count bs := by
  obtain ⟨bs, e, len, hb⟩ := run_from_New hn ops hf hr
  have hs := ToSlice_sorted bs
  have hmem : ∀ j, j ∈ (ToSlice bs).toList ↔ j ∈ refModel ops := by
    intro j
    rw [mem_ToSlice]
    constructor
    · rintro ⟨k, rfl, hk⟩
      rw [hb k] at hk
      exact of_decide_eq_true hk
    · intro hj
      have h0 : 0 ≤ j := by
        rcases mem_foldl_refStep ops ∅ hj with h1 | h1
        · exact absurd h1 (Finset.not_mem_empty _)
        · exact (hr _ h1).1
      refine ⟨j.toNat, Int.toNat_of_nonneg h0, ?_⟩
      rw [hb, Int.toNat_of_nonneg h0]
      exact decide_eq_true hj
  refine ⟨bs, e, len, ?_, hs, hs.nodup, hmem,
    fun j => mem_ToSlice.trans IsSet_eq_ok_true_iff.symm, ToSlice_length bs⟩
  apply List.eq_of_perm_of_sorted (r := (· ≤ ·)) _ hs.le_of_lt (Finset.sort_sorted _ _)
  rw [List.perm_ext_iff_of_nodup hs.nodup (Finset.sort_nodup _ _)]
  intro j
  rw [hmem, Finset.mem_sort]

/-! ## Capacities that do not overflow -/

theorem ceil_div_32 {n : Int} : ⌈(n : ℚ) / 32⌉ = (n + 31) / 32 := by
  rw [Int.ceil_eq_iff]
  have h1 : 32 * ((n + 31) / 32) - 32 < n := by omega
  have h2 : n ≤ 32 * ((n + 31) / 32) := by omega
  constructor
  · rw [lt_div_iff₀ (by norm_num)]
    have : (((32 * ((n + 31) / 32) - 32 : Int)) : ℚ) < (n : ℚ) := by exact_mod_cast h1
    push_cast at this
    linarith
  · rw [div_le_iff₀ (by norm_num)]
    have : ((n : Int) : ℚ) ≤ ((32 * ((n + 31) / 32) : Int) : ℚ) := by exact_mod_cast h2
    push_cast at this
    linarith

theorem New_spec {n : Int} (h0 : 0 ≤ n) (h1 : n ≤ 2 ^ 51) :
    ∃ b, New n = .ok b
      ∧ (b.segments.length : Int) = ⌈(n : ℚ) / 32⌉
      ∧ Len b = 32 * ⌈(n : ℚ) / 32⌉
      ∧ (∀ w ∈ b.segments, w = 0)
      ∧ n ≤ Len b ∧ Len b < n + 32 := by
  refine ⟨_, New_inRange h0 h1, ?_, ?_, ?_, ?_, ?_⟩
  · rw [ceil_div_32]
    simp only [List.length_replicate]
    omega
  · rw [ceil_div_32]
    simp only [Len, List.length_replicate]
    omega
  · intro w hw
    exact (List.mem_replicate.mp hw).2
  · simp only [Len, List.length_replicate]
    omega
  · simp only [Len, List.length_replicate]
    omega

theorem toNat_ediv_emod {i : Int} (h0 : 0 ≤ i) :
    (i / 32).toNat = i.toNat / 32 ∧ (i % 32).toNat = i.toNat % 32 := by
  constructor <;> omega

/-! ## Commuting stores -/

theorem atomicOr_comm (l : List Nat) (w1 m1 w2 m2 : Nat) :
    atomicOr (atomicOr l w1 m1) w2 m2 = atomicOr (atomicOr l w2 m2) w1 m1 := by
  unfold atomicOr
  apply List.ext_getElem?
  intro u
  simp only [List.getD_eq_getElem?_getD, List.getElem?_set, List.length_set]
  by_cases h12 : w1 = w2
  · subst h12
    by_cases hu : w1 = u
    · subst hu
      by_cases hl : w1 < l.length
      · simp [hl, Nat.lor_assoc, Nat.lor_comm m1 m2]
      · simp [hl]
    · simp [hu]
  · have h21 : w2 ≠ w1 := Ne.symm h12
    by_cases hu1 : w1 = u
    · subst hu1
      simp [h12, h21]
    · by_cases hu2 : w2 = u
      · subst hu2
        simp [h12, h21]
      · simp [hu1, hu2]

theorem index_congr {l1 l2 : List Nat} (h : l1.length = l2.length) (s : Int) :
    index l1 s = index l2 s := by
  unfold index
  rw [h]

theorem Set_bs_cases (bs : BitSet) (i : Int) :
    (Set bs i).bs = bs
    ∨ ∃ w m, index bs.segments (i.tdiv 32) = .ok w ∧ mask (i.tmod 32) = .ok m
        ∧ Set bs i = ⟨⟨atomicOr bs.segments w m⟩, .ok ()⟩ := by
  rcases hI : index bs.segments (i.tdiv 32) with p | w
  · left
    unfold Set
    simp only [hI]
  · rcases hM : mask (i.tmod 32) with p | m
    · left
      unfold Set
      simp only [hI, hM]
    · right
      refine ⟨w, m, rfl, rfl, ?_⟩
      unfold Set
      simp only [hI, hM]

theorem Set_bs_length (bs : BitSet) (i : Int) :
    (Set bs i).bs.segments.length = bs.segments.length := by
  rcases Set_bs_cases bs i with h | ⟨w, m, _, _, h⟩
  · rw [h]
  · rw [h]; exact atomicOr_length _ _ _

theorem Set_of_index_mask {bs : BitSet} {i : Int} {w m : Nat}
    (hI : index bs.segments (i.tdiv 32) = .ok w) (hM : mask (i.tmod 32) = .ok m) :
    Set bs i = ⟨⟨atomicOr bs.segments w m⟩, .ok ()⟩ := by
  unfold Set
  simp only [hI, hM]

theorem Set_bs_of_not_ok {bs : BitSet} {i : Int}
    (h : ¬ ∃ w m, index bs.segments (i.tdiv 32) = .ok w ∧ mask (i.tmod 32) = .ok m) :
    (Set bs i).bs = bs := by
  rcases Set_bs_cases bs i with h1 | ⟨w, m, hI, hM, _⟩
  · exact h1
  · exact absurd ⟨w, m, hI, hM⟩ h

theorem Set_bs_comm (bs : BitSet) (i j : Int) :
    (Set (Set bs i).bs j).bs = (Set (Set bs j).bs i).bs := by
  have hi := index_congr (Set_bs_length bs j) (i.tdiv 32)
  have hj := index_congr (Set_bs_length bs i) (j.tdiv 32)
  by_cases hI : ∃ w m, index bs.segments (i.tdiv 32) = .ok w ∧ mask (i.tmod 32) = .ok m
  · obtain ⟨w1, m1, hI1, hM1⟩ := hI
    by_cases hJ : ∃ w m, index bs.segments (j.tdiv 32) = .ok w ∧ mask (j.tmod 32) = .ok m
    · obtain ⟨w2, m2, hI2, hM2⟩ := hJ
      rw [Set_of_index_mask (hj.trans hI2) hM2, Set_of_index_mask (hi.trans hI1) hM1]
      simp only [Set_of_index_mask hI1 hM1, Set_of_index_mask hI2 hM2]
      rw [atomicOr_comm]
    · have h1 : (Set bs j).bs = bs := Set_bs_of_not_ok hJ
      have h2 : (Set (Set bs i).bs j).bs = (Set bs i).bs :=
        Set_bs_of_not_ok (by rw [hj]; exact hJ)
      rw [h2, h1]
  · have h1 : (Set bs i).bs = bs := Set_bs_of_not_ok hI
    have h2 : (Set (Set bs j).bs i).bs = (Set bs j).bs :=
      Set_bs_of_not_ok (by rw [hi]; exact hI)
    rw [h2, h1]

theorem run_sets (fuel : Nat) (L : List Int) :
    ∀ bs : BitSet, (∀ i ∈ L, 0 ≤ i ∧ i < Len bs) →
      run fuel bs (L.map Op.set) = some ⟨L.foldl (fun b i => (Set b i).bs) bs, .ok ()⟩ := by
  induction L with
  | nil => intro bs _; rfl
  | cons i L ih =>
    intro bs h
    obtain ⟨h0, h1⟩ := h i (List.mem_cons_self _ _)
    have hlen : Len (Set bs i).bs = Len bs := Len_eq_of_length (Set_bs_length bs i)
    have := ih (Set bs i).bs (fun x hx => by rw [hlen]; exact h x (List.mem_cons_of_mem _ hx))
    rw [List.map_cons, List.foldl_cons, ← this]
    simp only [run, exec, Set_inRange h0 h1]

/-! ## The loop of Unset, one goroutine -/

theorem unsetLoop_succ (segIdx bitIdx : Int) (fuel : Nat) (bs : BitSet) (iters : Nat) :
    unsetLoop segIdx bitIdx (fuel + 1) bs iters
      = match index bs.segments segIdx with
        | .error p => some (⟨bs, .error p⟩, iters + 1)
        | .ok w =>
          match mask bitIdx with
          | .error p => some (⟨bs, .error p⟩, iters + 1)
          | .ok m =>
            some (⟨⟨bs.segments.set w (andNot32 (bs.segments.getD w 0) m)⟩, .ok ()⟩,
              iters + 1) := by
  unfold unsetLoop
  rcases index bs.segments segIdx with p | w
  · rfl
  · rcases mask bitIdx with p | m
    · rfl
    · simp only [atomicLoad, atomicCompareAndSwap, if_true]

theorem Unset_length {fuel : Nat} {bs : BitSet} {i : Int} {o : Outcome}
    (h : Unset fuel bs i = some o) : o.bs.segments.length = bs.segments.length := by
  cases fuel with
  | zero => simp [Unset, unsetLoop] at h
  | succ f =>
    unfold Unset at h
    simp only [unsetLoop_succ] at h
    rcases hI : index bs.segments (i.tdiv 32) with p | w
    · simp only [hI, Option.map_some', Option.some.injEq] at h
      rw [← h]
    · rcases hM : mask (i.tmod 32) with p | m
      · simp only [hI, hM, Option.map_some', Option.some.injEq] at h
        rw [← h]
      · simp only [hI, hM, Option.map_some', Option.some.injEq] at h
        rw [← h]
        exact List.length_set _ _ _

theorem exec_length {fuel : Nat} {bs : BitSet} {op : Op} {o : Outcome}
    (h : exec fuel bs op = some o) : o.bs.segments.length = bs.segments.length := by
  cases op with
  | set i =>
    simp only [exec, Option.some.injEq] at h
    rw [← h]
    exact Set_bs_length bs i
  | unset i => exact Unset_length h
  | clear =>
    simp only [exec, Option.some.injEq] at h
    rw [← h]
    exact Clear_length bs
  | isSet i =>
    simp only [exec] at h
    split at h <;>
    · simp only [Option.some.injEq] at h
      rw [← h]
  | len => simp only [exec, Option.some.injEq] at h; rw [← h]
  | count => simp only [exec, Option.some.injEq] at h; rw [← h]
  | toSlice => simp only [exec, Option.some.injEq] at h; rw [← h]

/-! ## Words as `uint32` values -/

theorem testBit_andNot32_all (a b j : Nat) :
    (andNot32 a (2 ^ b)).testBit j
      = (a.testBit j && (decide (j < 32) ^^ decide (b = j))) := by
  unfold andNot32
  rw [Nat.testBit_and, Nat.testBit_xor, Nat.testBit_two_pow_sub_one, Nat.testBit_two_pow]

theorem testBit_of_lt_u32 {a j : Nat} (ha : a < 2 ^ 32) (hj : 32 ≤ j) : a.testBit j = false :=
  Nat.testBit_lt_two_pow (Nat.lt_of_lt_of_le ha (Nat.pow_le_pow_right (by norm_num) hj))

theorem or_then_andNot32 {a b : Nat} (ha : a < 2 ^ 32) (hb : b < 32)
    (hbit : a.testBit b = false) : andNot32 (a ||| 2 ^ b) (2 ^ b) = a := by
  apply Nat.eq_of_testBit_eq
  intro j
  rw [testBit_andNot32_all, Nat.testBit_or, Nat.testBit_two_pow]
  by_cases hj : j < 32
  · by_cases hbj : b = j
    · subst hbj; simp [hbit, hb]
    · simp [hj, hbj]
  · have hbj : b ≠ j := by omega
    simp [hj, hbj, testBit_of_lt_u32 ha (Nat.le_of_not_lt hj)]

theorem andNot32_then_or {a b : Nat} (ha : a < 2 ^ 32) (hbit : a.testBit b = true) :
    andNot32 a (2 ^ b) ||| 2 ^ b = a := by
  apply Nat.eq_of_testBit_eq
  intro j
  rw [Nat.testBit_or, testBit_andNot32_all, Nat.testBit_two_pow]
  by_cases hbj : b = j
  · subst hbj; simp [hbit]
  · by_cases hj : j < 32
    · simp [hj, hbj]
    · simp [hj, hbj, testBit_of_lt_u32 ha (Nat.le_of_not_lt hj)]

theorem andNot32_idem (a m : Nat) : andNot32 (andNot32 a m) m = andNot32 a m := by
  unfold andNot32
  rw [Nat.and_assoc, Nat.and_self]

theorem or_idem (a m : Nat) : (a ||| m) ||| m = a ||| m := by
  rw [Nat.or_assoc, Nat.or_self]

theorem set_getD_self (l : List Nat) (w : Nat) : l.set w (l.getD w 0) = l := by
  apply List.ext_getElem?
  intro u
  rw [List.getElem?_set]
  by_cases hu : w = u
  · subst hu
    by_cases hl : w < l.length
    · simp [hl, List.getElem?_eq_getElem hl]
    · simp [hl, List.getElem?_eq_none (Nat.le_of_not_lt hl)]
  · simp [hu]

theorem OnesCount32_two_pow : ∀ b < 32, OnesCount32 (2 ^ b) = 1 := by
  decide

theorem mask_lt {bitIdx : Int} {m : Nat} (h : mask bitIdx = .ok m) : m < 2 ^ 32 := by
  unfold mask at h
  split at h
  · cases h
  · cases h
    exact Nat.mod_lt _ (by norm_num)

theorem andNot32_lt (a : Nat) {m : Nat} (hm : m < 2 ^ 32) : andNot32 a m < 2 ^ 32 :=
  Nat.and_lt_two_pow a (Nat.xor_lt_two_pow (by norm_num) hm)

theorem wellFormed_set {l : List Nat} (h : wellFormed ⟨l⟩) (w : Nat) {v : Nat}
    (hv : v < 2 ^ 32) : wellFormed ⟨l.set w v⟩ := by
  intro x hx
  rcases List.mem_or_eq_of_mem_set hx with h1 | h1
  · exact h x h1
  · rw [h1]; exact hv

theorem getD_lt_of_wellFormed {bs : BitSet} (h : wellFormed bs) (w : Nat) :
    bs.segments.getD w 0 < 2 ^ 32 := by
  by_cases hw : w < bs.segments.length
  · rw [List.getD_eq_getElem _ 0 hw]
    exact h _ (List.getElem_mem _)
  · rw [List.getD_eq_default _ _ (Nat.le_of_not_lt hw)]
    norm_num

theorem New_wellFormed {n : Int} {b : BitSet} (h : New n = .ok b) : wellFormed b := by
  unfold New at h
  simp only at h
  split at h
  · cases h
  · cases h
    intro w hw
    rw [(List.mem_replicate.mp hw).2]
    norm_num

theorem Set_wellFormed {bs : BitSet} (h : wellFormed bs) (i : Int) :
    wellFormed (Set bs i).bs := by
  rcases Set_bs_cases bs i with h1 | ⟨w, m, _, hM, h1⟩
  · rw [h1]; exact h
  · rw [h1]
    exact wellFormed_set h w (Nat.or_lt_two_pow (getD_lt_of_wellFormed h w) (mask_lt hM))

theorem Unset_wellFormed {fuel : Nat} {bs : BitSet} {i : Int} {o : Outcome}
    (h : wellFormed bs) (hu : Unset fuel bs i = some o) : wellFormed o.bs := by
  cases fuel with
  | zero => simp [Unset, unsetLoop] at hu
  | succ f =>
    unfold Unset at hu
    simp only [unsetLoop_succ] at hu
    rcases hI : index bs.segments (i.tdiv 32) with p | w
    · simp only [hI, Option.map_some', Option.some.injEq] at hu
      rw [← hu]; exact h
    · rcases hM : mask (i.tmod 32) with p | m
      · simp only [hI, hM, Option.map_some', Option.some.injEq] at hu
        rw [← hu]; exact h
      · simp only [hI, hM, Option.map_some', Option.some.injEq] at hu
        rw [← hu]
        exact wellFormed_set h w (andNot32_lt _ (mask_lt hM))

theorem Clear_wellFormed (bs : BitSet) : wellFormed (Clear bs) := by
  rw [Clear_eq]
  intro w hw
  rw [(List.mem_replicate.mp hw).2]
  norm_num

theorem exec_wellFormed {fuel : Nat} {bs : BitSet} {op : Op} {o : Outcome}
    (h : wellFormed bs) (he : exec fuel bs op = some o) : wellFormed o.bs := by
  cases op with
  | set i =>
    simp only [exec, Option.some.injEq] at he
    rw [← he]
    exact Set_wellFormed h i
  | unset i => exact Unset_wellFormed h he
  | clear =>
    simp only [exec, Option.some.injEq] at he
    rw [← he]
    exact Clear_wellFormed bs
  | isSet i =>
    simp only [exec] at he
    split at he <;>
    · simp only [Option.some.injEq] at he
      rw [← he]
      exact h
  | len => simp only [exec, Option.some.injEq] at he; rw [← he]; exact h
  | count => simp only [exec, Option.some.injEq] at he; rw [← he]; exact h
  | toSlice => simp only [exec, Option.some.injEq] at he; rw [← he]; exact h

theorem run_wellFormed {fuel : Nat} (ops : List Op) :
    ∀ {bs : BitSet} {o : Outcome}, wellFormed bs → run fuel bs ops = some o →
      wellFormed o.bs := by
  induction ops with
  | nil =>
    intro bs o h hr
    simp only [run, Option.some.injEq] at hr
    rw [← hr]; exact h
  | cons op ops ih =>
    intro bs o h hr
    unfold run at hr
    rcases he : exec fuel bs op with _ | ⟨bs1, r⟩
    · simp [he] at hr
    · have hw1 : wellFormed bs1 := exec_wellFormed h he
      rcases r with p | u
      · simp only [he, Option.some.injEq] at hr
        rw [← hr]; exact hw1
      · simp only [he] at hr
        exact ih hw1 hr

/-! ## Population count as a sum over the words -/

theorem Count_sum_upto (segs : List Nat) (n : Nat) (hn : n ≤ segs.length) :
    (List.range n).foldl
      (fun total i =>
        let val := atomicLoad segs i
        total + OnesCount32 val)
      0
      = ((segs.take n).map OnesCount32).sum := by
  induction n with
  | zero => simp
  | succ n ih =>
    have hlt : n < segs.length := by omega
    rw [List.range_succ, List.foldl_append, ih (by omega), List.take_succ,
      List.getElem?_eq_getElem hlt]
    simp only [List.foldl_cons, List.foldl_nil, atomicLoad, List.map_append, List.sum_append,
      Option.toList, List.map_cons, List.map_nil, List.sum_cons, List.sum_nil, add_zero,
      List.getD_eq_getElem _ 0 hlt]

theorem Count_eq_sum (bs : BitSet) : Count bs = (bs.segments.map OnesCount32).sum := by
  have := Count_sum_upto bs.segments bs.segments.length (Nat.le_refl _)
  rw [List.take_length] at this
  exact this

/-! ## Interleaved executions: single steps -/

theorem write_cases {op : Op} {L : Int} (hw : op.isWrite = true) (hr : op.inRange L) :
    ∃ i, (op = .set i ∨ op = .unset i) ∧ op.target = some i ∧ 0 ≤ i ∧ i < L := by
  cases op with
  | set i => exact ⟨i, Or.inl rfl, rfl, hr.1, hr.2⟩
  | unset i => exact ⟨i, Or.inr rfl, rfl, hr.1, hr.2⟩
  | clear => cases hw
  | isSet i => cases hw
  | len => cases hw
  | count => cases hw
  | toSlice => cases hw

theorem step_callSet {segs : List Nat} {i : Int} (h0 : 0 ≤ i)
    (h1 : i < (segs.length : Int) * 32) :
    (Goroutine.callSet i).step segs
      = (atomicOr segs (i.toNat / 32) (2 ^ (i.toNat % 32)), .returned) := by
  have hI := (@index_inRange ⟨segs⟩ i h0 h1).1
  simp only [Goroutine.step, hI, mask_nonneg h0]

theorem step_callUnset {segs : List Nat} {i : Int} (h0 : 0 ≤ i)
    (h1 : i < (segs.length : Int) * 32) :
    (Goroutine.callUnset i).step segs
      = (segs, .unsetLoaded i (segs.getD (i.toNat / 32) 0)) := by
  have hI := (@index_inRange ⟨segs⟩ i h0 h1).1
  simp only [Goroutine.step, hI, atomicLoad]

theorem step_unsetLoaded {segs : List Nat} {i : Int} (old : Nat) (h0 : 0 ≤ i)
    (h1 : i < (segs.length : Int) * 32) :
    (Goroutine.unsetLoaded i old).step segs
      = if segs.getD (i.toNat / 32) 0 = old then
          (segs.set (i.toNat / 32) (andNot32 old (2 ^ (i.toNat % 32))), .returned)
        else (segs, .callUnset i) := by
  have hI := (@index_inRange ⟨segs⟩ i h0 h1).1
  simp only [Goroutine.step, hI, mask_nonneg h0, atomicCompareAndSwap]
  by_cases hc : segs.getD (i.toNat / 32) 0 = old
  · simp only [if_pos hc]
  · simp only [if_neg hc]

theorem set_getElem?_self {α : Type} {l : List α} {t : Nat} {a : α} (h : l[t]? = some a) :
    l.set t a = l := by
  apply List.ext_getElem?
  intro u
  rw [List.getElem?_set]
  by_cases hu : t = u
  · subst hu
    have : t < l.length := by
      by_contra hc
      rw [List.getElem?_eq_none (Nat.le_of_not_lt hc)] at h
      cases h
    simp [this, h]
  · simp [hu]

theorem lt_of_getElem?_eq_some {α : Type} {l : List α} {t : Nat} {a : α}
    (h : l[t]? = some a) : t < l.length := by
  by_contra hc
  rw [List.getElem?_eq_none (Nat.le_of_not_lt hc)] at h
  cases h

theorem target_ne_of_ne {calls : List Op} (hnd : (calls.map Op.target).Nodup) {t s : Nat}
    {op op' : Op} (ht : calls[t]? = some op) (hs : calls[s]? = some op') (hne : s ≠ t) :
    op'.target ≠ op.target := by
  intro heq
  have h1 : (calls.map Op.target)[t]? = some op.target := by
    rw [List.getElem?_map, ht]; rfl
  have h2 : (calls.map Op.target)[s]? = some op.target := by
    rw [List.getElem?_map, hs, ← heq]; rfl
  have hlt : s < (calls.map Op.target).length := lt_of_getElem?_eq_some h2
  exact hne (List.getElem?_inj hlt hnd (h2.trans h1.symm))

/-! ## Interleaved executions: the invariant -/

theorem Inv_commit {segs0 segs segs' : List Nat} {calls : List Op} {gs : List Goroutine}
    (hnd : (calls.map Op.target).Nodup)
    (hcalls : ∀ op ∈ calls, op.isWrite = true ∧ op.inRange ((segs0.length : Int) * 32))
    (hI : Inv segs0 calls segs gs) {t : Nat} {op : Op} {i : Int}
    (ht : calls[t]? = some op) (hti : op.target = some i) (h0 : 0 ≤ i)
    (hlen : segs'.length = segs.length)
    (hwf : wellFormed ⟨segs⟩ → wellFormed ⟨segs'⟩)
    (hbit : ∀ k, bit segs' k
      = if k = i.toNat then afterOp op k (bit segs0 k) else bit segs k) :
    Inv segs0 calls segs' (gs.set t .returned) := by
  obtain ⟨hl, hgl, hw, hth, hoth⟩ := hI
  refine ⟨hlen.trans hl, by rw [List.length_set]; exact hgl, fun h => hwf (hw h), ?_, ?_⟩
  · intro s op' hs
    by_cases hst : s = t
    · subst hst
      have hop : op' = op := Option.some.inj (hs.symm.trans ht)
      subst hop
      have hlt : s < gs.length := by rw [hgl]; exact lt_of_getElem?_eq_some hs
      refine ⟨.returned, List.getElem?_set_self hlt, Or.inl rfl, ?_⟩
      intro i' hi'
      have : i' = i := Option.some.inj (hi'.symm.trans hti)
      subst this
      rw [hbit, if_pos rfl, if_pos rfl]
    · obtain ⟨g, hg, hr, hb⟩ := hth s op' hs
      refine ⟨g, by rw [List.getElem?_set_ne (Ne.symm hst)]; exact hg, hr, ?_⟩
      intro i' hi'
      have hne : op'.target ≠ op.target := target_ne_of_ne hnd ht hs hst
      rw [hi', hti] at hne
      have hi0 : 0 ≤ i' := by
        obtain ⟨j, _, hj, hj0, _⟩ := write_cases (hcalls op' (List.getElem?_mem hs)).1
          (hcalls op' (List.getElem?_mem hs)).2
        have : j = i' := Option.some.inj (hj.symm.trans hi')
        rw [← this]; exact hj0
      have hk : i'.toNat ≠ i.toNat := by
        intro h
        apply hne
        congr 1
        omega
      rw [hbit, if_neg hk]
      exact hb i' hi'
  · intro k hk
    have : k ≠ i.toNat := by
      intro h
      apply hk op (List.getElem?_mem ht)
      rw [hti, h]
      congr 1
      omega
    rw [hbit, if_neg this]
    exact hoth k hk

theorem Inv_local {segs0 segs : List Nat} {calls : List Op} {gs : List Goroutine}
    (hI : Inv segs0 calls segs gs) {t : Nat} {op : Op} {g g' : Goroutine}
    (ht : calls[t]? = some op) (hg : gs[t]? = some g) (hgn : g ≠ .returned)
    (hr : g'.runs op) (hgn' : g' ≠ .returned) :
    Inv segs0 calls segs (gs.set t g') := by
  obtain ⟨hl, hgl, hw, hth, hoth⟩ := hI
  refine ⟨hl, by rw [List.length_set]; exact hgl, hw, ?_, hoth⟩
  intro s op' hs
  by_cases hst : s = t
  · subst hst
    have hop : op' = op := Option.some.inj (hs.symm.trans ht)
    subst hop
    obtain ⟨g0, hg0, _, hb⟩ := hth s op' hs
    have hgg : g0 = g := Option.some.inj (hg0.symm.trans hg)
    subst hgg
    refine ⟨g', List.getElem?_set_self (lt_of_getElem?_eq_some hg), hr, ?_⟩
    intro i hi
    rw [hb i hi, if_neg hgn, if_neg hgn']
  · obtain ⟨g0, hg0, hr0, hb⟩ := hth s op' hs
    exact ⟨g0, by rw [List.getElem?_set_ne (Ne.symm hst)]; exact hg0, hr0, hb⟩

theorem Inv_step {segs0 segs : List Nat} {calls : List Op} {gs : List Goroutine}
    (hnd : (calls.map Op.target).Nodup)
    (hcalls : ∀ op ∈ calls, op.isWrite = true ∧ op.inRange ((segs0.length : Int) * 32))
    (hI : Inv segs0 calls segs gs) {t : Nat} {g : Goroutine} (hg : gs[t]? = some g) :
    Inv segs0 calls (g.step segs).1 (gs.set t (g.step segs).2) := by
  have hlt : t < calls.length := by rw [← hI.2.1]; exact lt_of_getElem?_eq_some hg
  have ht : calls[t]? = some calls[t] := List.getElem?_eq_getElem hlt
  obtain ⟨g0, hg0, hr, _⟩ := hI.2.2.2.1 t _ ht
  have hgg : g0 = g := Option.some.inj (hg0.symm.trans hg)
  subst hgg
  obtain ⟨i, hop, hti, h0, h1⟩ := write_cases (hcalls _ (List.getElem?_mem ht)).1
    (hcalls _ (List.getElem?_mem ht)).2
  have h1' : i < (segs.length : Int) * 32 := by rw [hI.1]; exact h1
  have hw : i.toNat / 32 < segs.length := (@index_inRange ⟨segs⟩ i h0 h1').2
  by_cases hret : g0 = .returned
  · subst hret
    simp only [Goroutine.step]
    rw [set_getElem?_self hg]
    exact hI
  · rcases hr with hr | hr
    · exact absurd hr hret
    · rcases hop with hop | hop
      · rw [hop] at hr
        simp only at hr
        subst hr
        rw [step_callSet h0 h1']
        refine Inv_commit hnd hcalls hI ht hti h0 (atomicOr_length _ _ _) ?_ ?_
        · intro h
          exact wellFormed_set h _ (Nat.or_lt_two_pow (getD_lt_of_wellFormed h _)
            (Nat.pow_lt_pow_right (by norm_num) (Nat.mod_lt _ (by norm_num))))
        · intro k
          rw [bit_atomicOr hw, hop]
          by_cases hk : k = i.toNat
          · subst hk
            simp [afterOp, h0]
          · simp [hk]
      · rw [hop] at hr
        simp only at hr
        rcases hr with hr | ⟨old, hr⟩
        · subst hr
          rw [step_callUnset h0 h1']
          exact Inv_local hI ht hg (by simp) (by rw [hop]; exact Or.inr (Or.inr ⟨_, rfl⟩))
            (by simp)
        · subst hr
          rw [step_unsetLoaded old h0 h1']
          by_cases hc : segs.getD (i.toNat / 32) 0 = old
          · rw [if_pos hc]
            refine Inv_commit hnd hcalls hI ht hti h0 (List.length_set _ _ _) ?_ ?_
            · intro h
              exact wellFormed_set h _ (andNot32_lt _
                (Nat.pow_lt_pow_right (by norm_num) (Nat.mod_lt _ (by norm_num))))
            · intro k
              rw [← hc, bit_set_andNot32 hw, hop]
              by_cases hk : k = i.toNat
              · subst hk
                simp [afterOp, h0]
              · simp [hk]
          · rw [if_neg hc]
            exact Inv_local hI ht hg (by simp) (by rw [hop]; exact Or.inr (Or.inl rfl))
              (by simp)

theorem Inv_init (segs0 : List Nat) {calls : List Op}
    (hcalls : ∀ op ∈ calls, op.isWrite = true ∧ op.inRange ((segs0.length : Int) * 32)) :
    Inv segs0 calls segs0 (calls.map Op.start) := by
  refine ⟨rfl, List.length_map _ _, id, ?_, fun _ _ => rfl⟩
  intro t op ht
  obtain ⟨i, hop, _, _, _⟩ := write_cases (hcalls op (List.getElem?_mem ht)).1
    (hcalls op (List.getElem?_mem ht)).2
  refine ⟨op.start, by rw [List.getElem?_map, ht]; rfl, ?_, ?_⟩
  · rcases hop with hop | hop <;> subst hop
    · exact Or.inr rfl
    · exact Or.inr (Or.inl rfl)
  · intro j _
    have : op.start ≠ .returned := by
      rcases hop with hop | hop <;> subst hop <;> simp [Op.start]
    rw [if_neg this]

theorem Inv_interleave {segs0 : List Nat} {calls : List Op}
    (hnd : (calls.map Op.target).Nodup)
    (hcalls : ∀ op ∈ calls, op.isWrite = true ∧ op.inRange ((segs0.length : Int) * 32))
    (sched : List Nat) :
    ∀ (segs : List Nat) (gs : List Goroutine), Inv segs0 calls segs gs →
      Inv segs0 calls (interleave sched segs gs).1 (interleave sched segs gs).2 := by
  induction sched with
  | nil => intro segs gs h; exact h
  | cons t sched ih =>
    intro segs gs h
    unfold interleave
    rcases hg : gs[t]? with _ | g
    · exact ih segs gs h
    · exact ih _ _ (Inv_step hnd hcalls h hg)

/-! ## Interleaved executions: the final state -/

theorem afterOp_of_target_ne {op : Op} (hw : op.isWrite = true) {k : Nat}
    (h : op.target ≠ some (k : Int)) (b : Bool) : afterOp op k b = b := by
  cases op with
  | set i =>
    have : (k : Int) ≠ i := fun e => h (by rw [e]; rfl)
    simp [afterOp, this]
  | unset i =>
    have : (k : Int) ≠ i := fun e => h (by rw [e]; rfl)
    simp [afterOp, this]
  | clear => cases hw
  | isSet i => cases hw
  | len => cases hw
  | count => cases hw
  | toSlice => cases hw

theorem foldl_afterOp_of_not_target (k : Nat) (calls : List Op) :
    (∀ op ∈ calls, op.isWrite = true ∧ op.target ≠ some (k : Int)) →
      ∀ b, calls.foldl (fun b op => afterOp op k b) b = b := by
  induction calls with
  | nil => intro _ b; rfl
  | cons a rest ih =>
    intro h b
    rw [List.foldl_cons, afterOp_of_target_ne (h a (List.mem_cons_self _ _)).1
      (h a (List.mem_cons_self _ _)).2]
    exact ih (fun op hop => h op (List.mem_cons_of_mem _ hop)) b

theorem foldl_afterOp_of_target (k : Nat) (calls : List Op) :
    (calls.map Op.target).Nodup → (∀ op ∈ calls, op.isWrite = true) →
      ∀ op ∈ calls, op.target = some (k : Int) →
        ∀ b, calls.foldl (fun b op => afterOp op k b) b = afterOp op k b := by
  induction calls with
  | nil => intro _ _ op hop; cases hop
  | cons a rest ih =>
    intro hnd hw op hop ht b
    rw [List.map_cons, List.nodup_cons] at hnd
    rw [List.foldl_cons]
    rcases List.mem_cons.mp hop with rfl | hrest
    · apply foldl_afterOp_of_not_target
      intro op' hop'
      refine ⟨hw op' (List.mem_cons_of_mem _ hop'), ?_⟩
      intro h'
      apply hnd.1
      rw [ht, ← h']
      exact List.mem_map_of_mem _ hop'
    · have hne : a.target ≠ some (k : Int) := by
        intro h'
        apply hnd.1
        rw [h', ← ht]
        exact List.mem_map_of_mem _ hrest
      rw [afterOp_of_target_ne (hw a (List.mem_cons_self _ _)) hne]
      exact ih hnd.2 (fun op' hop' => hw op' (List.mem_cons_of_mem _ hop')) op hrest ht b

theorem Inv_all_returned {segs0 segs : List Nat} {calls : List Op} {gs : List Goroutine}
    (hnd : (calls.map Op.target).Nodup)
    (hcalls : ∀ op ∈ calls, op.isWrite = true ∧ op.inRange ((segs0.length : Int) * 32))
    (hI : Inv segs0 calls segs gs) (hall : ∀ g ∈ gs, g = .returned) (k : Nat) :
    bit segs k = calls.foldl (fun b op => afterOp op k b) (bit segs0 k) := by
  by_cases hk : ∃ op ∈ calls, op.target = some (k : Int)
  · obtain ⟨op, hop, ht⟩ := hk
    obtain ⟨t, hget⟩ := List.mem_iff_getElem?.mp hop
    obtain ⟨g, hg, _, hb⟩ := hI.2.2.2.1 t op hget
    have hret : g = .returned := hall g (List.getElem?_mem hg)
    have := hb (k : Int) ht
    rw [if_pos hret, Int.toNat_ofNat] at this
    rw [this, foldl_afterOp_of_target k calls hnd (fun o ho => (hcalls o ho).1) op hop ht]
  · have hk' : ∀ op ∈ calls, op.target ≠ some (k : Int) := fun op hop h => hk ⟨op, hop, h⟩
    rw [hI.2.2.2.2 k hk',
      foldl_afterOp_of_not_target k calls (fun op hop => ⟨(hcalls op hop).1, hk' op hop⟩)]

theorem segments_ext {a b : List Nat} (ha : wellFormed ⟨a⟩) (hb : wellFormed ⟨b⟩)
    (hl : a.length = b.length) (h : ∀ k, bit a k = bit b k) : a = b := by
  apply List.ext_getElem hl
  intro u h1 h2
  apply Nat.eq_of_testBit_eq
  intro j
  by_cases hj : j < 32
  · have := h (u * 32 + j)
    rw [bit_block a u hj, bit_block b u hj, List.getD_eq_getElem _ 0 h1,
      List.getD_eq_getElem _ 0 h2] at this
    exact this
  · rw [testBit_of_lt_u32 (ha _ (List.getElem_mem _)) (Nat.le_of_not_lt hj),
      testBit_of_lt_u32 (hb _ (List.getElem_mem _)) (Nat.le_of_not_lt hj)]

theorem setBits_congr {a b : List Nat} (hl : a.length = b.length)
    (h : ∀ k, bit a k = bit b k) : setBits a = setBits b := by
  unfold setBits
  rw [hl]
  apply List.filter_congr
  intro k _
  exact h k

theorem ToSlice_eq (bs : BitSet) :
    ToSlice bs = if setBits bs.segments = [] then none
      else some ((setBits bs.segments).map (fun k : Nat => (k : Int))) := by
  by_cases he : setBits bs.segments = []
  · rw [if_pos he]
    exact (ToSlice_eq_none_iff bs).mpr he
  · rw [if_neg he]
    have h1 := ToSlice_toList bs
    rcases hT : ToSlice bs with _ | xs
    · exact absurd ((ToSlice_eq_none_iff bs).mp hT) he
    · rw [hT] at h1
      exact congrArg some h1

theorem ToSlice_congr {a b : BitSet} (hl : a.segments.length = b.segments.length)
    (h : ∀ k, bit a.segments k = bit b.segments k) : ToSlice a = ToSlice b := by
  rw [ToSlice_eq, ToSlice_eq, setBits_congr hl h]

theorem interleave_eq_run {fuel : Nat} (hf : 0 < fuel) {bs : BitSet} {calls : List Op}
    (hnd : (calls.map Op.target).Nodup)
    (hcalls : ∀ op ∈ calls, op.isWrite = true ∧ op.inRange (Len bs))
    (sched : List Nat)
    (hall : ∀ g ∈ (interleave sched bs.segments (calls.map Op.start)).2, g = .returned) :
    ∃ bs', run fuel bs calls = some ⟨bs', .ok ()⟩
      ∧ bs'.segments.length = (interleave sched bs.segments (calls.map Op.start)).1.length
      ∧ (∀ k, bit (interleave sched bs.segments (calls.map Op.start)).1 k
            = bit bs'.segments k)
      ∧ (wellFormed bs →
          (interleave sched bs.segments (calls.map Op.start)).1 = bs'.segments) := by
  have hI := Inv_interleave hnd hcalls sched _ _ (Inv_init bs.segments hcalls)
  obtain ⟨bs', e, len, hb⟩ := run_inRange calls bs (fun _ => hf) (fun op hop => (hcalls op hop).2)
  have hbits : ∀ k, bit (interleave sched bs.segments (calls.map Op.start)).1 k
      = bit bs'.segments k := by
    intro k
    rw [hb k]
    exact Inv_all_returned hnd hcalls hI hall k
  refine ⟨bs', e, by rw [len, hI.1], hbits, ?_⟩
  intro hwf
  have hwf' : wellFormed bs' := run_wellFormed calls hwf e
  exact segments_ext (hI.2.2.1 hwf) hwf' (by rw [hI.1, len]) hbits

/-! ## Interleaved executions: progress -/

theorem interleave_cons_some {t : Nat} {gs : List Goroutine} {g : Goroutine}
    (hg : gs[t]? = some g) (sched : List Nat) (segs : List Nat) :
    interleave (t :: sched) segs gs
      = interleave sched (g.step segs).1 (gs.set t (g.step segs).2) := by
  rw [interleave, hg]

theorem interleave_cons_none {t : Nat} {gs : List Goroutine} (hg : gs[t]? = none)
    (sched : List Nat) (segs : List Nat) :
    interleave (t :: sched) segs gs = interleave sched segs gs := by
  rw [interleave, hg]

theorem interleave_append (s1 s2 : List Nat) :
    ∀ (segs : List Nat) (gs : List Goroutine),
      interleave (s1 ++ s2) segs gs
        = interleave s2 (interleave s1 segs gs).1 (interleave s1 segs gs).2 := by
  induction s1 with
  | nil => intro segs gs; rfl
  | cons t s1 ih =>
    intro segs gs
    rw [List.cons_append]
    rcases hg : gs[t]? with _ | g
    · rw [interleave_cons_none hg, interleave_cons_none hg]
      exact ih segs gs
    · rw [interleave_cons_some hg, interleave_cons_some hg]
      exact ih _ _

theorem returned_stable (sched : List Nat) :
    ∀ (segs : List Nat) (gs : List Goroutine) (t : Nat), gs[t]? = some .returned →
      (interleave sched segs gs).2[t]? = some .returned := by
  induction sched with
  | nil => intro segs gs t h; exact h
  | cons s sched ih =>
    intro segs gs t h
    rcases hg : gs[s]? with _ | g
    · rw [interleave_cons_none hg]
      exact ih segs gs t h
    · rw [interleave_cons_some hg]
      apply ih
      by_cases hst : s = t
      · subst hst
        have : g = .returned := Option.some.inj (hg.symm.trans h)
        subst this
        rw [List.getElem?_set_self (lt_of_getElem?_eq_some hg)]
        rfl
      · rw [List.getElem?_set_ne hst]
        exact h

theorem set_calls_return {segs0 : List Nat} {calls : List Op}
    (hnd : (calls.map Op.target).Nodup)
    (hcalls : ∀ op ∈ calls, op.isWrite = true ∧ op.inRange ((segs0.length : Int) * 32))
    (hsets : ∀ op ∈ calls, ∃ i, op = .set i) (sched : List Nat) :
    ∀ (segs : List Nat) (gs : List Goroutine), Inv segs0 calls segs gs →
      ∀ t ∈ sched, t < calls.length →
        (interleave sched segs gs).2[t]? = some .returned := by
  induction sched with
  | nil => intro _ _ _ t ht; cases ht
  | cons s sched ih =>
    intro segs gs hI t ht hlt
    rcases List.mem_cons.mp ht with rfl | hrest
    · have hget : calls[t]? = some calls[t] := List.getElem?_eq_getElem hlt
      obtain ⟨g, hg, hr, _⟩ := hI.2.2.2.1 t _ hget
      rw [interleave_cons_some hg]
      apply returned_stable
      rw [List.getElem?_set_self (lt_of_getElem?_eq_some hg)]
      congr 1
      obtain ⟨i, hi⟩ := hsets _ (List.getElem?_mem hget)
      rcases hr with hr | hr
      · rw [hr]; rfl
      · rw [hi] at hr
        simp only at hr
        have hrange := (hcalls _ (List.getElem?_mem hget)).2
        rw [hi] at hrange
        rw [hr, step_callSet hrange.1 (by rw [hI.1]; exact hrange.2)]
    · rcases hg : gs[s]? with _ | g
      · rw [interleave_cons_none hg]
        exact ih segs gs hI t hrest hlt
      · rw [interleave_cons_some hg]
        exact ih _ _ (Inv_step hnd hcalls hI hg) t hrest hlt

theorem solo_returns {segs0 segs : List Nat} {calls : List Op} {gs : List Goroutine}
    (hcalls : ∀ op ∈ calls, op.isWrite = true ∧ op.inRange ((segs0.length : Int) * 32))
    (hI : Inv segs0 calls segs gs) {t : Nat} (hlt : t < calls.length) :
    (interleave [t, t, t] segs gs).2[t]? = some .returned := by
  have hget : calls[t]? = some calls[t] := List.getElem?_eq_getElem hlt
  obtain ⟨g, hg, hr, _⟩ := hI.2.2.2.1 t _ hget
  obtain ⟨i, hop, _, h0, h1⟩ := write_cases (hcalls _ (List.getElem?_mem hget)).1
    (hcalls _ (List.getElem?_mem hget)).2
  have h1' : i < (segs.length : Int) * 32 := by rw [hI.1]; exact h1
  have hlg : t < gs.length := lt_of_getElem?_eq_some hg
  have hw : i.toNat / 32 < segs.length := (@index_inRange ⟨segs⟩ i h0 h1').2
  -- two steps from the top of the loop of `Unset` return
  have fromTop : ∀ (gs1 : List Goroutine) (rest : List Nat), t < gs1.length →
      gs1[t]? = some (.callUnset i) →
      (interleave (t :: t :: rest) segs gs1).2[t]? = some .returned := by
    intro gs1 rest hl1 h
    rw [interleave_cons_some h, step_callUnset h0 h1']
    have h2 : (gs1.set t (.unsetLoaded i (segs.getD (i.toNat / 32) 0)))[t]?
        = some (.unsetLoaded i (segs.getD (i.toNat / 32) 0)) := List.getElem?_set_self hl1
    rw [interleave_cons_some h2, step_unsetLoaded _ h0 h1', if_pos rfl]
    apply returned_stable
    rw [List.getElem?_set_self (by rw [List.length_set]; exact hl1)]
  rcases hr with hr | hr
  · rw [hr] at hg
    exact returned_stable _ _ _ _ hg
  · rcases hop with hop | hop
    · rw [hop] at hr
      simp only at hr
      rw [hr] at hg
      rw [interleave_cons_some hg, step_callSet h0 h1']
      apply returned_stable
      rw [List.getElem?_set_self hlg]
    · rw [hop] at hr
      simp only at hr
      rcases hr with hr | ⟨old, hr⟩
      · rw [hr] at hg
        exact fromTop gs [t] hlg hg
      · rw [hr] at hg
        rw [interleave_cons_some hg, step_unsetLoaded old h0 h1']
        by_cases hc : segs.getD (i.toNat / 32) 0 = old
        · rw [if_pos hc]
          apply returned_stable
          rw [List.getElem?_set_self hlg]
        · rw [if_neg hc]
          exact fromTop _ [] (by rw [List.length_set]; exact hlg)
            (List.getElem?_set_self hlg)

theorem eq_replicate_returned {gs : List Goroutine} {n : Nat} (hl : gs.length = n)
    (h : ∀ t < n, gs[t]? = some .returned) : gs = List.replicate n .returned := by
  apply List.ext_getElem?
  intro t
  by_cases ht : t < n
  · rw [h t ht, List.getElem?_replicate, if_pos ht]
  · rw [List.getElem?_eq_none (by omega), List.getElem?_replicate, if_neg ht]

theorem refModel_map_set (L : List Int) : refModel (L.map Op.set) = L.toFinset := by
  ext j
  rw [mem_refModel_map_set, List.mem_toFinset]

theorem afterOp_comm_of_ne {i j : Int} (hne : i ≠ j) {other : Op}
    (hother : other = .set j ∨ other = .unset j) (k : Nat) (b : Bool) :
    afterOp (.unset i) k (afterOp other k b) = afterOp other k (afterOp (.unset i) k b) := by
  by_cases hi : (k : Int) = i
  · have hj : (k : Int) ≠ j := fun h => hne (hi.symm.trans h)
    rcases hother with rfl | rfl <;> simp [afterOp, hi, hj, hne]
  · rcases hother with rfl | rfl <;> simp [afterOp, hi]

/-! ## One goroutine alone runs the sequential methods -/

theorem step_callSet_eq_Set (segs : List Nat) (i : Int) :
    ((Goroutine.callSet i).step segs).1 = (Set ⟨segs⟩ i).bs.segments
    ∧ (((Goroutine.callSet i).step segs).2 = .returned ↔ (Set ⟨segs⟩ i).ret = .ok ()) := by
  unfold Goroutine.step Set
  rcases hI : index segs (i.tdiv 32) with p | w
  · simp [hI]
  · rcases hM : mask (i.tmod 32) with p | m
    · simp [hI, hM]
    · simp [hI, hM]

theorem two_steps_eq_Unset (segs : List Nat) (i : Int) :
    (Unset 1 ⟨segs⟩ i).map (fun o => o.bs.segments)
      = some ((((Goroutine.callUnset i).step segs).2.step
          ((Goroutine.callUnset i).step segs).1).1) := by
  unfold Unset
  simp only [unsetLoop_succ (i.tdiv 32) (i.tmod 32) 0, Goroutine.step]
  rcases hI : index segs (i.tdiv 32) with p | w
  · simp [Goroutine.step]
  · rcases hM : mask (i.tmod 32) with p | m
    · simp [Goroutine.step, hI, hM]
    · simp [Goroutine.step, hI, hM, atomicCompareAndSwap, atomicLoad]

/-! ## Which panic an index out of range ends in -/

theorem outOfRange_cases_exact {bs : BitSet} {i : Int} (h : i < 0 ∨ Len bs ≤ i) :
    (index bs.segments (i.tdiv 32) = .error .indexOutOfRange
      ∧ ¬ (-32 < i ∧ i < 0 ∧ bs.segments ≠ []))
    ∨ (index bs.segments (i.tdiv 32) = .ok 0 ∧ mask (i.tmod 32) = .error .negativeShift
        ∧ -32 < i ∧ i < 0 ∧ bs.segments ≠ []) := by
  unfold Len at h
  by_cases hneg : i < 0
  · obtain ⟨hd, hm⟩ := tdiv_tmod_neg hneg
    by_cases hsmall : i ≤ -32 ∨ bs.segments.length = 0
    · left
      refine ⟨?_, ?_⟩
      · unfold index
        rw [if_pos (by rw [hd]; omega)]
      · rintro ⟨h1, _, h3⟩
        rcases hsmall with hs | hs
        · omega
        · exact h3 (List.length_eq_zero.mp hs)
    · right
      have hz : i.tdiv 32 = 0 := by rw [hd]; omega
      have hne : bs.segments ≠ [] := by
        intro he
        apply hsmall
        right
        rw [he]
        rfl
      refine ⟨?_, ?_, by omega, hneg, hne⟩
      · unfold index
        rw [hz, if_neg (by omega)]
        rfl
      · unfold mask
        rw [if_pos (by rw [hm]; omega)]
  · left
    have h0 : 0 ≤ i := by omega
    refine ⟨?_, fun hc => hneg hc.2.1⟩
    unfold index
    rw [Int.tdiv_eq_ediv h0 (by norm_num), if_pos (by omega)]

theorem outOfRange_panics_exact (fuel : Nat) {bs : BitSet} {i : Int}
    (h : i < 0 ∨ Len bs ≤ i) :
    ∃ p, Set bs i = ⟨bs, .error p⟩ ∧ Unset (fuel + 1) bs i = some ⟨bs, .error p⟩
      ∧ IsSet bs i = .error p
      ∧ (p = .negativeShift ↔ (-32 < i ∧ i < 0 ∧ bs.segments ≠ []))
      ∧ (p = .indexOutOfRange ↔ ¬ (-32 < i ∧ i < 0 ∧ bs.segments ≠ [])) := by
  rcases outOfRange_cases_exact h with ⟨hi, hn⟩ | ⟨hi, hm, hr⟩
  · refine ⟨.indexOutOfRange, by simp only [Set, hi], by simp [Unset, unsetLoop, hi],
      by simp only [IsSet, hi], ?_, ?_⟩
    · exact ⟨fun hp => (by cases hp), fun hc => absurd hc hn⟩
    · exact ⟨fun _ => hn, fun _ => rfl⟩
  · refine ⟨.negativeShift, by simp only [Set, hi, hm], by simp [Unset, unsetLoop, hi, hm],
      by simp only [IsSet, hi, hm], ?_, ?_⟩
    · exact ⟨fun _ => hr, fun _ => rfl⟩
    · exact ⟨fun hp => (by cases hp), fun hc => absurd hr hc⟩

/-! ## The claims -/

/-- C1: after `Set(i)` with `i` in range, followed by any in-range calls among which
there is neither `Unset(i)` nor `Clear()`, every call has returned and `IsSet(i)`
returns true; with no call in between, `IsSet(i)` is true right after `Set(i)`. -/
theorem C1_set_then_isSet (fuel : Nat) (hf : 0 < fuel) (bs : BitSet) (i : Int)
    (ops : List Op) (h0 : 0 ≤ i) (h1 : i < Len bs)
    (hr : ∀ op ∈ ops, op.inRange (Len bs))
    (hu : Op.unset i ∉ ops) (hc : Op.clear ∉ ops) :
    (∃ bs', run fuel bs (Op.set i :: ops) = some ⟨bs', .ok ()⟩ ∧ IsSet bs' i = .ok true)
    ∧ (Set bs i).ret = .ok () ∧ IsSet (Set bs i).bs i = .ok true := by
  have key : ∀ l : List Op, (∀ op ∈ l, op.inRange (Len bs)) → Op.unset i ∉ l →
      Op.clear ∉ l →
      ∃ bs', run fuel bs (Op.set i :: l) = some ⟨bs', .ok ()⟩ ∧ IsSet bs' i = .ok true := by
    intro l hl hul hcl
    have hall : ∀ op ∈ Op.set i :: l, op.inRange (Len bs) := by
      intro op hop
      rcases List.mem_cons.mp hop with rfl | hop
      · exact ⟨h0, h1⟩
      · exact hl op hop
    obtain ⟨bs', e, len, hb⟩ := run_inRange (Op.set i :: l) bs (fun _ => hf) hall
    refine ⟨bs', e, ?_⟩
    rw [IsSet_inRange h0 (by rw [Len_eq_of_length len]; exact h1), hb]
    obtain ⟨k, rfl⟩ := Int.eq_ofNat_of_zero_le h0
    have hd : afterOp (Op.set (k : Int)) k (bit bs.segments k) = true := by simp [afterOp]
    rw [Int.toNat_ofNat, List.foldl_cons, hd, foldl_afterOp_true k l hul hcl]
  refine ⟨key ops hr hu hc, ?_⟩
  obtain ⟨bs', e, hs⟩ := key [] (fun _ h => absurd h (List.not_mem_nil _))
    (List.not_mem_nil _) (List.not_mem_nil _)
  rw [Set_inRange h0 h1] at *
  simp only [run, exec, Set_inRange h0 h1, Option.some.injEq, Outcome.mk.injEq, and_true] at e
  subst e
  exact ⟨rfl, hs⟩

/-- Witness for C1_set_then_isSet: on a one-word bitmap, `Set(3)` followed by
`Set(5)`, `Unset(4)`, `IsSet(3)`, `Count()`. -/
theorem C1_set_then_isSet_witness :
    (∃ bs', run 1 ⟨[0]⟩ (Op.set 3 :: [Op.set 5, Op.unset 4, Op.isSet 3, Op.count])
        = some ⟨bs', .ok ()⟩ ∧ IsSet bs' 3 = .ok true)
    ∧ (Set ⟨[0]⟩ 3).ret = .ok () ∧ IsSet (Set ⟨[0]⟩ 3).bs 3 = .ok true :=
  C1_set_then_isSet 1 (by decide) ⟨[0]⟩ 3 [Op.set 5, Op.unset 4, Op.isSet 3, Op.count]
    (by decide) (by decide) (by decide) (by decide) (by decide)

/-- C2: for every bitmap and every index `i` in range, `Unset(i)` returns and
`IsSet(i)` is false right after it, whatever bit `i` was before. -/
theorem C2_unset_then_isSet (fuel : Nat) (hf : 0 < fuel) (bs : BitSet) (i : Int)
    (h0 : 0 ≤ i) (h1 : i < Len bs) :
    ∃ bs', Unset fuel bs i = some ⟨bs', .ok ()⟩ ∧ IsSet bs' i = .ok false := by
  obtain ⟨bs', e, len, hb⟩ := exec_inRange (fun _ => hf)
    (show (Op.unset i).inRange (Len bs) from ⟨h0, h1⟩)
  refine ⟨bs', e, ?_⟩
  rw [IsSet_inRange h0 (by rw [Len_eq_of_length len]; exact h1), hb]
  obtain ⟨k, rfl⟩ := Int.eq_ofNat_of_zero_le h0
  simp [afterOp]

/-- Witness for C2_unset_then_isSet: bit 9 of a word that has bits 3, 9 and 31 set. -/
theorem C2_unset_then_isSet_witness :
    ∃ bs', Unset 1 ⟨[2147484168]⟩ 9 = some ⟨bs', .ok ()⟩ ∧ IsSet bs' 9 = .ok false :=
  C2_unset_then_isSet 1 (by decide) ⟨[2147484168]⟩ 9 (by decide) (by decide)

/-- C3: after any sequence of in-range calls on `New(n)`, all calls have returned and
`ToSlice()` holds exactly the indices of the reference model (empty at first, insert
on `Set`, remove on `Unset`, empty on `Clear`) in strictly ascending order, without
duplicates; an index is in it exactly when `IsSet` returns true for it; and its
length is `Count()`. -/
theorem C3_toSlice_is_sorted_model (fuel : Nat) (hf : 0 < fuel) (n : Int) (b0 : BitSet)
    (hn : New n = .ok b0) (ops : List Op) (hr : ∀ op ∈ ops, op.inRange (Len b0)) :
    ∃ bs, run fuel b0 ops = some ⟨bs, .ok ()⟩
      ∧ (ToSlice bs).toList = (refModel ops).sort (· ≤ ·)
      ∧ ((ToSlice bs).toList).Sorted (· < ·)
      ∧ ((ToSlice bs).toList).Nodup
      ∧ (∀ j, j ∈ (ToSlice bs).toList ↔ j ∈ refModel ops)
      ∧ (∀ j, j ∈ (ToSlice bs).toList ↔ IsSet bs j = .ok true)
      ∧ (((ToSlice bs).toList).length : Int) = Count bs := by
  obtain ⟨bs, e, _, h⟩ := toSlice_after_run hn ops (fun _ => hf) hr
  exact ⟨bs, e, h⟩

/-- Witness for C3_toSlice_is_sorted_model: `New(40)` and the calls `Set(35)`,
`Set(3)`, `Set(9)`, `Unset(3)`, `Clear()`, `Set(31)`, `Set(2)`. -/
theorem C3_toSlice_is_sorted_model_witness :
    ∃ bs, run 1 ⟨[0, 0]⟩ [Op.set 35, Op.set 3, Op.set 9, Op.unset 3, Op.clear, Op.set 31,
        Op.set 2] = some ⟨bs, .ok ()⟩
      ∧ (ToSlice bs).toList = (refModel [Op.set 35, Op.set 3, Op.set 9, Op.unset 3,
          Op.clear, Op.set 31, Op.set 2]).sort (· ≤ ·)
      ∧ ((ToSlice bs).toList).Sorted (· < ·)
      ∧ ((ToSlice bs).toList).Nodup
      ∧ (∀ j, j ∈ (ToSlice bs).toList ↔ j ∈ refModel [Op.set 35, Op.set 3, Op.set 9,
          Op.unset 3, Op.clear, Op.set 31, Op.set 2])
      ∧ (∀ j, j ∈ (ToSlice bs).toList ↔ IsSet bs j = .ok true)
      ∧ (((ToSlice bs).toList).length : Int) = Count bs :=
  C3_toSlice_is_sorted_model 1 (by decide) 40 ⟨[0, 0]⟩ (by decide)
    [Op.set 35, Op.set 3, Op.set 9, Op.unset 3, Op.clear, Op.set 31, Op.set 2] (by decide)

/-- C4: after `Set(i)` for each `i` of a list `L` of in-range indices, in order, on
`New(n)`, `Count()` is the number of distinct indices in `L`; and setting any of
them once more leaves `Count()` as it is. -/
theorem C4_count_distinct (fuel : Nat) (n : Int) (b0 : BitSet) (hn : New n = .ok b0)
    (L : List Int) (hL : ∀ i ∈ L, 0 ≤ i ∧ i < Len b0) :
    ∃ bs, run fuel b0 (L.map Op.set) = some ⟨bs, .ok ()⟩
      ∧ Count bs = (L.dedup.length : Int)
      ∧ ∀ i ∈ L, (Set bs i).ret = .ok () ∧ Count (Set bs i).bs = Count bs := by
  have hf : (∃ i, Op.unset i ∈ L.map Op.set) → 0 < fuel := by
    rintro ⟨i, hi⟩
    obtain ⟨_, _, h⟩ := List.mem_map.mp hi
    cases h
  have hr : ∀ op ∈ L.map Op.set, op.inRange (Len b0) := by
    intro op hop
    obtain ⟨i, hi, rfl⟩ := List.mem_map.mp hop
    exact hL i hi
  obtain ⟨bs, e, len, _, _, hnd, hmem, _, hlen⟩ := toSlice_after_run hn (L.map Op.set) hf hr
  refine ⟨bs, e, ?_, ?_⟩
  · rw [← hlen]
    congr 1
    apply List.Perm.length_eq
    rw [List.perm_ext_iff_of_nodup hnd (List.nodup_dedup L)]
    intro j
    rw [hmem, mem_refModel_map_set, List.mem_dedup]
  · intro i hi
    obtain ⟨h0, h1⟩ := hL i hi
    have h1' : i < Len bs := by rw [Len_eq_of_length len]; exact h1
    rw [Set_inRange h0 h1']
    refine ⟨rfl, Count_congr (atomicOr_length _ _ _) (fun k => ?_)⟩
    have hset : bit bs.segments i.toNat = true := by
      have : i ∈ (ToSlice bs).toList := (hmem i).mpr ((mem_refModel_map_set L i).mpr hi)
      obtain ⟨k, rfl, hk⟩ := mem_ToSlice.mp this
      simpa using hk
    simp only
    rw [bit_atomicOr (index_inRange h0 h1').2 k]
    by_cases hk : k = i.toNat
    · subst hk; simp [hset]
    · simp [hk]

/-- Witness for C4_count_distinct: `New(40)` and `Set` of 3, 35, 3, 9, 35. -/
theorem C4_count_distinct_witness :
    ∃ bs, run 0 ⟨[0, 0]⟩ ([3, 35, 3, 9, 35].map Op.set) = some ⟨bs, .ok ()⟩
      ∧ Count bs = (([3, 35, 3, 9, 35] : List Int).dedup.length : Int)
      ∧ ∀ i ∈ ([3, 35, 3, 9, 35] : List Int),
          (Set bs i).ret = .ok () ∧ Count (Set bs i).bs = Count bs :=
  C4_count_distinct 0 40 ⟨[0, 0]⟩ (by decide) [3, 35, 3, 9, 35] (by decide)

/-- C5: for every bitmap, after `Clear()` the count is 0, `ToSlice()` is empty and
`IsSet(i)` is false for every `i` in range. -/
theorem C5_clear_empties (bs : BitSet) :
    Count (Clear bs) = 0
    ∧ (ToSlice (Clear bs)).toList = []
    ∧ ∀ i : Int, 0 ≤ i → i < Len bs → IsSet (Clear bs) i = .ok false := by
  have hempty : setBits (Clear bs).segments = [] := by
    unfold setBits
    rw [List.filter_eq_nil_iff]
    intro k _
    simp [bit_Clear]
  refine ⟨?_, ?_, ?_⟩
  · rw [Count_eq, hempty]; rfl
  · rw [ToSlice_toList, hempty]; rfl
  · intro i h0 h1
    rw [IsSet_inRange h0 (by rw [Len_eq_of_length (Clear_length bs)]; exact h1), bit_Clear]

/-- Witness for C5_clear_empties: a two-word bitmap with bits 0, 2 and 63 set, read
at index 2 after `Clear()`. -/
theorem C5_clear_empties_witness :
    Count (Clear ⟨[5, 2147483648]⟩) = 0
    ∧ (ToSlice (Clear ⟨[5, 2147483648]⟩)).toList = []
    ∧ IsSet (Clear ⟨[5, 2147483648]⟩) 2 = .ok false :=
  ⟨(C5_clear_empties ⟨[5, 2147483648]⟩).1, (C5_clear_empties ⟨[5, 2147483648]⟩).2.1,
    (C5_clear_empties ⟨[5, 2147483648]⟩).2.2 2 (by decide) (by decide)⟩

/-- C6 fails as stated: `2 ^ 51 + 1` is a non-negative value of `int`, and `New` panics
on it, because the `2 ^ 46 + 1` words asked of `make` take more than `maxAlloc`
bytes. -/
theorem C6_New_above_limit_panics :
    (0 : Int) ≤ 2 ^ 51 + 1 ∧ (2 ^ 51 + 1 : Int) ≤ maxInt
    ∧ (wrapInt (2 ^ 51 + 1 + 31)).tdiv 32 = 2 ^ 46 + 1
    ∧ maxAlloc < 4 * (2 ^ 46 + 1)
    ∧ New (2 ^ 51 + 1) = .error .makeLenOutOfRange := by
  decide

/-- C6, amended: for every capacity `n` with `0 ≤ n ≤ 2 ^ 51`, the capacities whose
words fit the allocation limit of `make`, `New(n)` does not panic, allocates exactly
`ceil(n / 32)` words, all zero, and `Len()` of the result is `32 * ceil(n / 32)`; for
`n = 0` there are no words and `Len()` is 0. -/
theorem C6_New_rounds_up (n : Int) (h0 : 0 ≤ n) (h1 : n ≤ 2 ^ 51) :
    ∃ b, New n = .ok b
      ∧ (b.segments.length : Int) = ⌈(n : ℚ) / 32⌉
      ∧ Len b = 32 * ⌈(n : ℚ) / 32⌉
      ∧ (∀ w ∈ b.segments, w = 0)
      ∧ (n = 0 → b.segments = [] ∧ Len b = 0) := by
  obtain ⟨b, e, hl, hL, hz, _, hu⟩ := New_spec h0 h1
  refine ⟨b, e, hl, hL, hz, ?_⟩
  intro hn
  subst hn
  have hlen : b.segments.length = 0 := by
    unfold Len at hu
    omega
  exact ⟨List.length_eq_zero.mp hlen, by unfold Len; omega⟩

/-- Witness for C6_New_rounds_up: capacity 40, which needs two words. -/
theorem C6_New_rounds_up_witness :
    ∃ b, New 40 = .ok b
      ∧ (b.segments.length : Int) = ⌈((40 : Int) : ℚ) / 32⌉
      ∧ Len b = 32 * ⌈((40 : Int) : ℚ) / 32⌉
      ∧ (∀ w ∈ b.segments, w = 0)
      ∧ ((40 : Int) = 0 → b.segments = [] ∧ Len b = 0) :=
  C6_New_rounds_up 40 (by decide) (by decide)

/-- C7 fails as stated: on the capacity `2 ^ 52` the call `New` panics in `make`, so
there is no bitmap on which the indices below that capacity are valid. -/
theorem C7_New_large_capacity_panics :
    (0 : Int) ≤ 2 ^ 52 ∧ (2 ^ 52 : Int) ≤ maxInt
    ∧ New (2 ^ 52) = .error .makeLenOutOfRange := by
  decide

/-- C7, amended: for every capacity `n` with `0 ≤ n ≤ 2 ^ 51`, `New(n)` returns a
bitmap with `n ≤ Len() < n + 32`, and for every index `i` with `0 ≤ i < n` the calls
`Set(i)`, `Unset(i)` and `IsSet(i)` on it return normally. -/
theorem C7_New_supports_n_bits (fuel : Nat) (hf : 0 < fuel) (n : Int) (h0 : 0 ≤ n)
    (h1 : n ≤ 2 ^ 51) :
    ∃ b, New n = .ok b ∧ n ≤ Len b ∧ Len b < n + 32
      ∧ ∀ i : Int, 0 ≤ i → i < n →
          i < Len b ∧ (Set b i).ret = .ok ()
          ∧ (∃ b', Unset fuel b i = some ⟨b', .ok ()⟩)
          ∧ ∃ v, IsSet b i = .ok v := by
  obtain ⟨b, e, _, _, _, hlo, hhi⟩ := New_spec h0 h1
  refine ⟨b, e, hlo, hhi, ?_⟩
  intro i hi0 hin
  have hi1 : i < Len b := Int.lt_of_lt_of_le hin hlo
  refine ⟨hi1, by rw [Set_inRange hi0 hi1], ⟨_, Unset_inRange hi0 hi1 hf⟩,
    ⟨_, IsSet_inRange hi0 hi1⟩⟩

/-- Witness for C7_New_supports_n_bits: capacity 40 and its last index, 39. -/
theorem C7_New_supports_n_bits_witness :
    ∃ b, New 40 = .ok b ∧ (40 : Int) ≤ Len b ∧ Len b < 40 + 32
      ∧ (39 : Int) < Len b ∧ (Set b 39).ret = .ok ()
      ∧ (∃ b', Unset 1 b 39 = some ⟨b', .ok ()⟩)
      ∧ ∃ v, IsSet b 39 = .ok v :=
  match C7_New_supports_n_bits 1 (by decide) 40 (by decide) (by decide) with
  | ⟨b, e, hlo, hhi, h⟩ => ⟨b, e, hlo, hhi, h 39 (by decide) (by decide)⟩

/-- C8 fails as stated: `Set(-1)`, `Unset(-1)` and `IsSet(-1)` on a one-word bitmap
pass the bounds check, with word index `-1 / 32 = 0`, and panic on the negative shift
count `-1 % 32 = -1`, which is not an index-out-of-range failure. -/
theorem C8_negative_index_panics_on_shift :
    (-1 : Int) < 0 ∧ index [5] ((-1 : Int).tdiv 32) = .ok 0
    ∧ Set ⟨[5]⟩ (-1) = ⟨⟨[5]⟩, .error .negativeShift⟩
    ∧ Unset 1 ⟨[5]⟩ (-1) = some ⟨⟨[5]⟩, .error .negativeShift⟩
    ∧ IsSet ⟨[5]⟩ (-1) = .error .negativeShift
    ∧ Panic.negativeShift ≠ Panic.indexOutOfRange := by
  decide

/-- C8, amended: for an index outside `[0, Len())`, each of `Set`, `Unset` and `IsSet`
panics instead of returning, all three with the same panic, and the bitmap is left
exactly as it was.  The panic is the negative shift count when `-32 < i < 0` and the
bitmap has a word, and the index out of range in every other case. -/
theorem C8_out_of_range_panics (fuel : Nat) (hf : 0 < fuel) (bs : BitSet) (i : Int)
    (h : i < 0 ∨ Len bs ≤ i) :
    ∃ p, Set bs i = ⟨bs, .error p⟩ ∧ Unset fuel bs i = some ⟨bs, .error p⟩
      ∧ IsSet bs i = .error p
      ∧ (p = .negativeShift ↔ (-32 < i ∧ i < 0 ∧ bs.segments ≠ []))
      ∧ (p = .indexOutOfRange ↔ ¬ (-32 < i ∧ i < 0 ∧ bs.segments ≠ [])) := by
  obtain ⟨f, rfl⟩ : ∃ f, fuel = f + 1 := ⟨fuel - 1, by omega⟩
  exact outOfRange_panics_exact f h

/-- Witness for C8_out_of_range_panics: index 32, just past a one-word bitmap, and
index -7, where the shift count is negative. -/
theorem C8_out_of_range_panics_witness :
    (∃ p, Set ⟨[5]⟩ 32 = ⟨⟨[5]⟩, .error p⟩ ∧ Unset 1 ⟨[5]⟩ 32 = some ⟨⟨[5]⟩, .error p⟩
      ∧ IsSet ⟨[5]⟩ 32 = .error p
      ∧ (p = .negativeShift
          ↔ (-32 < (32 : Int) ∧ (32 : Int) < 0 ∧ (⟨[5]⟩ : BitSet).segments ≠ []))
      ∧ (p = .indexOutOfRange
          ↔ ¬ (-32 < (32 : Int) ∧ (32 : Int) < 0 ∧ (⟨[5]⟩ : BitSet).segments ≠ [])))
    ∧ (∃ p, Set ⟨[5]⟩ (-7) = ⟨⟨[5]⟩, .error p⟩
      ∧ Unset 1 ⟨[5]⟩ (-7) = some ⟨⟨[5]⟩, .error p⟩
      ∧ IsSet ⟨[5]⟩ (-7) = .error p
      ∧ (p = .negativeShift
          ↔ (-32 < (-7 : Int) ∧ (-7 : Int) < 0 ∧ (⟨[5]⟩ : BitSet).segments ≠ []))
      ∧ (p = .indexOutOfRange
          ↔ ¬ (-32 < (-7 : Int) ∧ (-7 : Int) < 0 ∧ (⟨[5]⟩ : BitSet).segments ≠ []))) :=
  ⟨C8_out_of_range_panics 1 (by decide) ⟨[5]⟩ 32 (by decide),
    C8_out_of_range_panics 1 (by decide) ⟨[5]⟩ (-7) (by decide)⟩

/-- C9 fails as stated: on the fresh bitmap `New(10)`, where no bit is set, `ToSlice()`
returns the nil slice, not a non-nil empty one. -/
theorem C9_fresh_toSlice_is_nil :
    New 10 = .ok ⟨[0]⟩ ∧ Count ⟨[0]⟩ = 0 ∧ ToSlice ⟨[0]⟩ = none
    ∧ (ToSlice ⟨[0]⟩).isSome = false := by
  decide

/-- C9, amended: for every bitmap in which no bit is set, `ToSlice()` returns a
sequence without elements, and that value is the nil slice. -/
theorem C9_no_bit_set_toSlice_empty (bs : BitSet)
    (h : ∀ i : Int, 0 ≤ i → i < Len bs → IsSet bs i = .ok false) :
    (ToSlice bs).toList = [] ∧ ToSlice bs = none := by
  have hempty : setBits bs.segments = [] := by
    unfold setBits
    rw [List.filter_eq_nil_iff]
    intro k hk hb
    have h1 : (k : Int) < Len bs := by
      have := List.mem_range.mp hk
      unfold Len
      omega
    have := h k (Int.ofNat_nonneg k) h1
    rw [IsSet_inRange (Int.ofNat_nonneg k) h1, Int.toNat_ofNat, hb] at this
    cases this
  exact ⟨by rw [ToSlice_toList, hempty]; rfl, (ToSlice_eq_none_iff bs).mpr hempty⟩

/-- Witness for C9_no_bit_set_toSlice_empty: a two-word bitmap after `Clear()`. -/
theorem C9_no_bit_set_toSlice_empty_witness :
    (ToSlice ⟨[0, 0]⟩).toList = [] ∧ ToSlice ⟨[0, 0]⟩ = none :=
  C9_no_bit_set_toSlice_empty ⟨[0, 0]⟩ (by
    intro i h0 h1
    rw [IsSet_inRange h0 h1]
    exact congrArg Except.ok (bit_replicate_zero 2 i.toNat))

/-- C10: for `i` in range, `Set(i)` returns and changes only word `i / 32`, whose new
value is the old one OR `2 ^ (i mod 32)`; the number of words and every other word
stay as they were, `IsSet(j)` is unchanged for every in-range `j` other than `i`, and
bit `j` of word `w` is what `IsSet(w*32 + j)` reads. -/
theorem C10_set_frame (bs : BitSet) (i : Int) (h0 : 0 ≤ i) (h1 : i < Len bs) :
    (Set bs i).ret = .ok ()
    ∧ (Set bs i).bs.segments
        = bs.segments.set (i / 32).toNat
            (bs.segments.getD (i / 32).toNat 0 ||| 2 ^ (i % 32).toNat)
    ∧ (Set bs i).bs.segments.length = bs.segments.length
    ∧ (Set bs i).bs.segments.getD (i / 32).toNat 0
        = bs.segments.getD (i / 32).toNat 0 ||| 2 ^ (i % 32).toNat
    ∧ (∀ u : Nat, u ≠ (i / 32).toNat →
        (Set bs i).bs.segments.getD u 0 = bs.segments.getD u 0)
    ∧ (∀ j : Int, 0 ≤ j → j < Len bs → j ≠ i → IsSet (Set bs i).bs j = IsSet bs j)
    ∧ (∀ w j : Nat, w < bs.segments.length → j < 32 →
        IsSet bs ((w : Int) * 32 + (j : Int)) = .ok ((bs.segments.getD w 0).testBit j)) := by
  obtain ⟨hd, hm⟩ := toNat_ediv_emod h0
  have hw := (index_inRange h0 h1).2
  rw [Set_inRange h0 h1, hd, hm]
  refine ⟨rfl, rfl, atomicOr_length _ _ _, getD_set_self hw _,
    fun u hu => getD_set_other (Ne.symm hu) _, ?_, ?_⟩
  · intro j hj0 hj1 hne
    have hlen : Len (⟨atomicOr bs.segments (i.toNat / 32) (2 ^ (i.toNat % 32))⟩ : BitSet)
        = Len bs := Len_eq_of_length (atomicOr_length _ _ _)
    rw [IsSet_inRange hj0 (by rw [hlen]; exact hj1), IsSet_inRange hj0 hj1,
      bit_atomicOr hw]
    have : j.toNat ≠ i.toNat := by omega
    simp [this]
  · intro w j hw' hj
    have hr : ((w : Int) * 32 + (j : Int)) < Len bs := by
      unfold Len
      omega
    rw [IsSet_inRange (by omega) hr]
    have : ((w : Int) * 32 + (j : Int)).toNat = w * 32 + j := by omega
    rw [this, bit_block _ _ hj]

/-- Witness for C10_set_frame: `Set(36)` on a two-word bitmap in which bit 36 is clear. -/
theorem C10_set_frame_witness :
    (Set ⟨[5, 8]⟩ 36).ret = .ok ()
    ∧ (Set ⟨[5, 8]⟩ 36).bs.segments
        = ([5, 8] : List Nat).set ((36 : Int) / 32).toNat
            (([5, 8] : List Nat).getD ((36 : Int) / 32).toNat 0 ||| 2 ^ ((36 : Int) % 32).toNat)
    ∧ (Set ⟨[5, 8]⟩ 36).bs.segments.length = ([5, 8] : List Nat).length
    ∧ (Set ⟨[5, 8]⟩ 36).bs.segments.getD ((36 : Int) / 32).toNat 0
        = ([5, 8] : List Nat).getD ((36 : Int) / 32).toNat 0 ||| 2 ^ ((36 : Int) % 32).toNat
    ∧ (∀ u : Nat, u ≠ ((36 : Int) / 32).toNat →
        (Set ⟨[5, 8]⟩ 36).bs.segments.getD u 0 = ([5, 8] : List Nat).getD u 0)
    ∧ (∀ j : Int, 0 ≤ j → j < Len ⟨[5, 8]⟩ → j ≠ 36 →
        IsSet (Set ⟨[5, 8]⟩ 36).bs j = IsSet ⟨[5, 8]⟩ j)
    ∧ (∀ w j : Nat, w < ([5, 8] : List Nat).length → j < 32 →
        IsSet ⟨[5, 8]⟩ ((w : Int) * 32 + (j : Int))
          = .ok ((([5, 8] : List Nat).getD w 0).testBit j)) :=
  C10_set_frame ⟨[5, 8]⟩ 36 (by decide) (by decide)

/-- C11: `Set` calls commute: `Set(i)` then `Set(j)` leaves the same word array as
`Set(j)` then `Set(i)`, whether the two indices share a word or not, and two lists of
in-range `Set` calls that are permutations of each other both run to the end and
leave the same word array. -/
theorem C11_set_calls_commute (fuel : Nat) (bs : BitSet) (i j : Int) (L1 L2 : List Int)
    (hp : L1.Perm L2) (hL : ∀ x ∈ L1, 0 ≤ x ∧ x < Len bs) :
    (Set (Set bs i).bs j).bs = (Set (Set bs j).bs i).bs
    ∧ ∃ bs', run fuel bs (L1.map Op.set) = some ⟨bs', .ok ()⟩
        ∧ run fuel bs (L2.map Op.set) = some ⟨bs', .ok ()⟩ := by
  refine ⟨Set_bs_comm bs i j, L1.foldl (fun b x => (Set b x).bs) bs, run_sets fuel L1 bs hL, ?_⟩
  rw [run_sets fuel L2 bs (fun x hx => hL x (hp.mem_iff.mpr hx))]
  rw [List.Perm.foldl_eq' hp (fun x _ y _ z => Set_bs_comm z x y) bs]

/-- Witness for C11_set_calls_commute: indices 3 and 35 in different words, and the
lists 3, 9, 35, 3 and 35, 3, 3, 9. -/
theorem C11_set_calls_commute_witness :
    (Set (Set ⟨[5, 8]⟩ 3).bs 35).bs = (Set (Set ⟨[5, 8]⟩ 35).bs 3).bs
    ∧ ∃ bs', run 0 ⟨[5, 8]⟩ ([3, 9, 35, 3].map Op.set) = some ⟨bs', .ok ()⟩
        ∧ run 0 ⟨[5, 8]⟩ ([35, 3, 3, 9].map Op.set) = some ⟨bs', .ok ()⟩ :=
  C11_set_calls_commute 0 ⟨[5, 8]⟩ 3 35 [3, 9, 35, 3] [35, 3, 3, 9] (by decide) (by decide)

/-- C12: the number of words never changes: whatever a call does, also when it
panics, the bitmap it leaves has as many words as before; every in-range call
returns with `Len()` unchanged, and so does every finite sequence of in-range
calls. -/
theorem C12_capacity_immutable (fuel : Nat) (hf : 0 < fuel) (bs : BitSet) :
    (∀ op o, exec fuel bs op = some o →
        o.bs.segments.length = bs.segments.length ∧ Len o.bs = Len bs)
    ∧ (∀ op, op.inRange (Len bs) →
        ∃ bs', exec fuel bs op = some ⟨bs', .ok ()⟩
          ∧ bs'.segments.length = bs.segments.length ∧ Len bs' = Len bs)
    ∧ (∀ ops, (∀ op ∈ ops, op.inRange (Len bs)) →
        ∃ bs', run fuel bs ops = some ⟨bs', .ok ()⟩
          ∧ bs'.segments.length = bs.segments.length ∧ Len bs' = Len bs) := by
  refine ⟨fun op o h => ⟨exec_length h, Len_eq_of_length (exec_length h)⟩, ?_, ?_⟩
  · intro op hop
    obtain ⟨bs', e, len, _⟩ := exec_inRange (fun _ => hf) hop
    exact ⟨bs', e, len, Len_eq_of_length len⟩
  · intro ops hops
    obtain ⟨bs', e, len, _⟩ := run_inRange ops bs (fun _ => hf) hops
    exact ⟨bs', e, len, Len_eq_of_length len⟩

/-- Witness for C12_capacity_immutable: a run of every kind of call on a two-word
bitmap. -/
theorem C12_capacity_immutable_witness :
    ∃ bs', run 1 ⟨[5, 8]⟩ [Op.set 40, Op.unset 0, Op.isSet 7, Op.count, Op.toSlice,
        Op.clear, Op.len, Op.set 63] = some ⟨bs', .ok ()⟩
      ∧ bs'.segments.length = ([5, 8] : List Nat).length ∧ Len bs' = Len ⟨[5, 8]⟩ :=
  (C12_capacity_immutable 1 (by decide) ⟨[5, 8]⟩).2.2
    [Op.set 40, Op.unset 0, Op.isSet 7, Op.count, Op.toSlice, Op.clear, Op.len, Op.set 63]
    (by decide)

set_option maxRecDepth 100000 in
/-- C13: the worked example: `New(10)` has one word and `Len() == 32`; after `Set(3)`,
`Set(9)`, `Set(31)` the call `ToSlice()` gives 3, 9, 31 and `Count()` gives 3; after a
further `Unset(9)`, `ToSlice()` gives 3, 31. -/
theorem C13_worked_example :
    New 10 = .ok ⟨[0]⟩ ∧ Len ⟨[0]⟩ = 32
    ∧ run 1 ⟨[0]⟩ [Op.set 3, Op.set 9, Op.set 31] = some ⟨⟨[2147484168]⟩, .ok ()⟩
    ∧ ToSlice ⟨[2147484168]⟩ = some [3, 9, 31] ∧ Count ⟨[2147484168]⟩ = 3
    ∧ Unset 1 ⟨[2147484168]⟩ 9 = some ⟨⟨[2147483656]⟩, .ok ()⟩
    ∧ ToSlice ⟨[2147483656]⟩ = some [3, 31] := by
  decide

/-- C14: on a fresh bitmap, when goroutines call `Set` on distinct in-range indices,
one index each, then under every interleaving of their atomic steps in which every
goroutine gets its turn all calls return, and afterwards `Count()` is the number of
goroutines, `ToSlice()` is the ascending list of exactly those indices, and `IsSet`
is true at those indices and at no other. -/
theorem C14_concurrent_sets (n : Int) (b0 : BitSet) (hn : New n = .ok b0) (L : List Int)
    (hd : L.Nodup) (hL : ∀ i ∈ L, 0 ≤ i ∧ i < Len b0) (sched : List Nat)
    (hs : ∀ t < L.length, t ∈ sched) :
    (interleave sched b0.segments (L.map Goroutine.callSet)).2
        = List.replicate L.length .returned
    ∧ Count ⟨(interleave sched b0.segments (L.map Goroutine.callSet)).1⟩ = (L.length : Int)
    ∧ (ToSlice ⟨(interleave sched b0.segments (L.map Goroutine.callSet)).1⟩).toList
        = L.toFinset.sort (· ≤ ·)
    ∧ ((ToSlice ⟨(interleave sched b0.segments (L.map Goroutine.callSet)).1⟩).toList).Sorted
        (· < ·)
    ∧ (∀ j, IsSet ⟨(interleave sched b0.segments (L.map Goroutine.callSet)).1⟩ j = .ok true
        ↔ j ∈ L) := by
  have hgs : L.map Goroutine.callSet = (L.map Op.set).map Op.start := by
    rw [List.map_map]; rfl
  have hnd : ((L.map Op.set).map Op.target).Nodup := by
    rw [List.map_map]
    exact hd.map (fun a b h => Option.some.inj h)
  have hcalls : ∀ op ∈ L.map Op.set, op.isWrite = true ∧ op.inRange (Len b0) := by
    intro op hop
    obtain ⟨i, hi, rfl⟩ := List.mem_map.mp hop
    exact ⟨rfl, hL i hi⟩
  have hsets : ∀ op ∈ L.map Op.set, ∃ i, op = .set i := by
    intro op hop
    obtain ⟨i, _, rfl⟩ := List.mem_map.mp hop
    exact ⟨i, rfl⟩
  rw [hgs]
  have hI := Inv_interleave hnd hcalls sched _ _ (Inv_init b0.segments hcalls)
  have hret : (interleave sched b0.segments ((L.map Op.set).map Op.start)).2
      = List.replicate L.length .returned := by
    apply eq_replicate_returned (by rw [hI.2.1, List.length_map])
    intro t ht
    exact set_calls_return hnd hcalls hsets sched _ _ (Inv_init b0.segments hcalls) t
      (hs t ht) (by rw [List.length_map]; exact ht)
  have hall : ∀ g ∈ (interleave sched b0.segments ((L.map Op.set).map Op.start)).2,
      g = .returned := by
    intro g hg
    rw [hret] at hg
    exact (List.mem_replicate.mp hg).2
  obtain ⟨bs', e, len, hbits, _⟩ :=
    interleave_eq_run (Nat.one_pos) hnd hcalls sched hall
  obtain ⟨bs2, e2, _, hsort, hsorted, hnodup, hmem, hiff, hcount⟩ :=
    toSlice_after_run hn (L.map Op.set) (fun _ => Nat.one_pos) (fun op hop => (hcalls op hop).2)
  have hb : bs2 = bs' := by
    rw [e] at e2
    simp only [Option.some.injEq, Outcome.mk.injEq, and_true] at e2
    exact e2.symm
  subst hb
  have hT : ToSlice ⟨(interleave sched b0.segments ((L.map Op.set).map Op.start)).1⟩
      = ToSlice bs2 := ToSlice_congr len.symm hbits
  have hC : Count ⟨(interleave sched b0.segments ((L.map Op.set).map Op.start)).1⟩
      = Count bs2 := Count_congr len.symm hbits
  refine ⟨hret, ?_, ?_, ?_, ?_⟩
  · rw [hC, ← hcount]
    congr 1
    apply List.Perm.length_eq
    rw [List.perm_ext_iff_of_nodup hnodup hd]
    intro j
    rw [hmem, mem_refModel_map_set]
  · rw [hT, hsort, refModel_map_set]
  · rw [hT]; exact hsorted
  · intro j
    rw [IsSet_eq_ok_true_iff]
    simp only [hbits]
    rw [← IsSet_eq_ok_true_iff, ← hiff, hmem, mem_refModel_map_set]

/-- Witness for C14_concurrent_sets: three goroutines set 35, 3 and 9 on `New(40)`;
in the schedule the third goes first and the second is named twice. -/
theorem C14_concurrent_sets_witness :
    (interleave [2, 1, 0, 1] [0, 0] ([35, 3, 9].map Goroutine.callSet)).2
        = List.replicate ([35, 3, 9] : List Int).length .returned
    ∧ Count ⟨(interleave [2, 1, 0, 1] [0, 0] ([35, 3, 9].map Goroutine.callSet)).1⟩
        = (([35, 3, 9] : List Int).length : Int)
    ∧ (ToSlice ⟨(interleave [2, 1, 0, 1] [0, 0] ([35, 3, 9].map Goroutine.callSet)).1⟩).toList
        = ([35, 3, 9] : List Int).toFinset.sort (· ≤ ·)
    ∧ ((ToSlice
          ⟨(interleave [2, 1, 0, 1] [0, 0] ([35, 3, 9].map Goroutine.callSet)).1⟩).toList).Sorted
        (· < ·)
    ∧ (∀ j, IsSet ⟨(interleave [2, 1, 0, 1] [0, 0] ([35, 3, 9].map Goroutine.callSet)).1⟩ j
          = .ok true ↔ j ∈ ([35, 3, 9] : List Int)) :=
  C14_concurrent_sets 40 ⟨[0, 0]⟩ (by decide) [35, 3, 9] (by decide) (by decide)
    [2, 1, 0, 1] (by decide)

/-- C15: `Unset(i)` running concurrently with `Set(j)` or `Unset(j)`, for in-range
`i ≠ j` (in particular two bits of one word) on `uint32` words: under every schedule
of the load, fetch-or and compare-and-swap steps after which both calls have
returned, bit `i` is clear, bit `j` has the value the other call gives it, and the
word array is the one either sequential order of the two calls produces; and every
schedule can be continued so that both calls return. -/
theorem C15_no_lost_update (bs : BitSet) (hwf : wellFormed bs) (i j : Int)
    (hi0 : 0 ≤ i) (hi1 : i < Len bs) (hj0 : 0 ≤ j) (hj1 : j < Len bs) (hne : i ≠ j)
    (other : Op) (hother : other = .set j ∨ other = .unset j) (sched : List Nat) :
    ((interleave sched bs.segments [.callUnset i, other.start]).2 = [.returned, .returned] →
      IsSet ⟨(interleave sched bs.segments [.callUnset i, other.start]).1⟩ i = .ok false
      ∧ IsSet ⟨(interleave sched bs.segments [.callUnset i, other.start]).1⟩ j
          = .ok (decide (other = .set j))
      ∧ run 1 bs [.unset i, other]
          = some ⟨⟨(interleave sched bs.segments [.callUnset i, other.start]).1⟩, .ok ()⟩
      ∧ run 1 bs [other, .unset i]
          = some ⟨⟨(interleave sched bs.segments [.callUnset i, other.start]).1⟩, .ok ()⟩)
    ∧ (interleave (sched ++ [0, 0, 0, 1, 1, 1]) bs.segments [.callUnset i, other.start]).2
        = [.returned, .returned] := by
  have hgs : [Goroutine.callUnset i, other.start] = ([Op.unset i, other]).map Op.start := rfl
  have htj : other.target = some j := by rcases hother with rfl | rfl <;> rfl
  have hnd : (([Op.unset i, other]).map Op.target).Nodup := by
    have hm : ([Op.unset i, other]).map Op.target = [some i, some j] := by
      simp only [List.map_cons, List.map_nil, htj]
      rfl
    rw [hm]
    simp [hne]
  have hoR : other.isWrite = true ∧ other.inRange (Len bs) := by
    rcases hother with rfl | rfl <;> exact ⟨rfl, hj0, hj1⟩
  have hcalls : ∀ op ∈ [Op.unset i, other], op.isWrite = true ∧ op.inRange (Len bs) := by
    intro op hop
    simp only [List.mem_cons, List.mem_singleton, List.not_mem_nil, or_false] at hop
    rcases hop with rfl | rfl
    · exact ⟨rfl, hi0, hi1⟩
    · exact hoR
  rw [hgs]
  constructor
  · intro hfin
    have hall : ∀ g ∈ (interleave sched bs.segments (([Op.unset i, other]).map Op.start)).2,
        g = .returned := by
      intro g hg
      rw [hfin] at hg
      simp only [List.mem_cons, List.mem_singleton, List.not_mem_nil, or_false, or_self] at hg
      exact hg
    obtain ⟨bs', e, len, hbits, heq⟩ :=
      interleave_eq_run (Nat.one_pos) hnd hcalls sched hall
    have hseg := heq hwf
    have hbs' : (⟨(interleave sched bs.segments (([Op.unset i, other]).map Op.start)).1⟩ : BitSet)
        = bs' := by
      rw [hseg]
    rw [hbs']
    obtain ⟨bs1, e1, len1, hb1⟩ := run_inRange [Op.unset i, other] bs (fun _ => Nat.one_pos)
      (fun op hop => (hcalls op hop).2)
    have hb : bs1 = bs' := by
      rw [e] at e1
      simp only [Option.some.injEq, Outcome.mk.injEq, and_true] at e1
      exact e1.symm
    subst hb
    have hLen : Len bs1 = Len bs := Len_eq_of_length len1
    obtain ⟨bs2, e2, len2, hb2⟩ := run_inRange [other, Op.unset i] bs (fun _ => Nat.one_pos)
      (by
        intro op hop
        simp only [List.mem_cons, List.mem_singleton, List.not_mem_nil, or_false] at hop
        rcases hop with rfl | rfl
        · exact hoR.2
        · exact ⟨hi0, hi1⟩)
    have h21 : bs2 = bs1 := by
      have hs : bs2.segments = bs1.segments := by
        apply segments_ext (run_wellFormed _ hwf e2) (run_wellFormed _ hwf e)
          (len2.trans len1.symm)
        intro k
        rw [hb2 k, hb1 k]
        simp only [List.foldl_cons, List.foldl_nil]
        exact afterOp_comm_of_ne hne hother k _
      cases bs2
      cases bs1
      simp only at hs
      rw [hs]
    refine ⟨?_, ?_, e, by rw [e2, h21]⟩
    · rw [IsSet_inRange hi0 (by rw [hLen]; exact hi1), hb1]
      simp only [List.foldl_cons, List.foldl_nil]
      have hk : ((i.toNat : Nat) : Int) = i := Int.toNat_of_nonneg hi0
      rcases hother with rfl | rfl <;> simp [afterOp, hk, hne]
    · rw [IsSet_inRange hj0 (by rw [hLen]; exact hj1), hb1]
      simp only [List.foldl_cons, List.foldl_nil]
      have hk : ((j.toNat : Nat) : Int) = j := Int.toNat_of_nonneg hj0
      rcases hother with rfl | rfl <;> simp [afterOp, hk]
  · have hI := Inv_interleave hnd hcalls sched _ _ (Inv_init bs.segments hcalls)
    have e1 : sched ++ [0, 0, 0, 1, 1, 1] = (sched ++ [0, 0, 0]) ++ [1, 1, 1] := by simp
    have hI1 := Inv_interleave hnd hcalls (sched ++ [0, 0, 0]) _ _ (Inv_init bs.segments hcalls)
    have h0 : (interleave (sched ++ [0, 0, 0]) bs.segments
        (([Op.unset i, other]).map Op.start)).2[0]? = some .returned := by
      rw [interleave_append]
      exact solo_returns hcalls hI (by simp)
    have hfin0 : (interleave (sched ++ [0, 0, 0, 1, 1, 1]) bs.segments
        (([Op.unset i, other]).map Op.start)).2[0]? = some .returned := by
      rw [e1, interleave_append]
      exact returned_stable _ _ _ _ h0
    have hfin1 : (interleave (sched ++ [0, 0, 0, 1, 1, 1]) bs.segments
        (([Op.unset i, other]).map Op.start)).2[1]? = some .returned := by
      rw [e1, interleave_append]
      exact solo_returns hcalls hI1 (by simp)
    have hI2 := Inv_interleave hnd hcalls (sched ++ [0, 0, 0, 1, 1, 1]) _ _
      (Inv_init bs.segments hcalls)
    have hlen := hI2.2.1
    have := eq_replicate_returned hlen (by
      intro t ht
      simp only [List.length_cons, List.length_nil] at ht
      interval_cases t
      · exact hfin0
      · exact hfin1)
    rw [this]
    rfl

/-- Witness for C15_no_lost_update: `Unset(2)` against `Set(4)` on the word 5; the
fetch-or lands between the load and the compare-and-swap of `Unset(2)`, which fails
and retries. -/
theorem C15_no_lost_update_witness :
    IsSet ⟨(interleave [0, 1, 0, 0, 0] [5] [.callUnset 2, (Op.set 4).start]).1⟩ 2 = .ok false
    ∧ IsSet ⟨(interleave [0, 1, 0, 0, 0] [5] [.callUnset 2, (Op.set 4).start]).1⟩ 4
        = .ok (decide (Op.set 4 = Op.set 4))
    ∧ run 1 ⟨[5]⟩ [.unset 2, Op.set 4]
        = some ⟨⟨(interleave [0, 1, 0, 0, 0] [5] [.callUnset 2, (Op.set 4).start]).1⟩, .ok ()⟩
    ∧ run 1 ⟨[5]⟩ [Op.set 4, .unset 2]
        = some ⟨⟨(interleave [0, 1, 0, 0, 0] [5] [.callUnset 2, (Op.set 4).start]).1⟩, .ok ()⟩ :=
  (C15_no_lost_update ⟨[5]⟩ (by decide) 2 4 (by decide) (by decide) (by decide) (by decide)
    (by decide) (Op.set 4) (Or.inl rfl) [0, 1, 0, 0, 0]).1 (by decide)

/-- C16: for `i` in range and no other writer, `Unset(i)` returns and changes only
word `i / 32`, whose new value is the old one AND NOT `2 ^ (i mod 32)`, that is the
old one with that bit cleared; the number of words and every other word stay as they
were, and `IsSet(j)` is unchanged for every in-range `j` other than `i`. -/
theorem C16_unset_frame (fuel : Nat) (hf : 0 < fuel) (bs : BitSet) (i : Int)
    (h0 : 0 ≤ i) (h1 : i < Len bs) :
    ∃ bs', Unset fuel bs i = some ⟨bs', .ok ()⟩
      ∧ bs'.segments
          = bs.segments.set (i / 32).toNat
              (andNot32 (bs.segments.getD (i / 32).toNat 0) (2 ^ (i % 32).toNat))
      ∧ bs'.segments.length = bs.segments.length
      ∧ bs'.segments.getD (i / 32).toNat 0
          = andNot32 (bs.segments.getD (i / 32).toNat 0) (2 ^ (i % 32).toNat)
      ∧ (∀ j : Nat, j < 32 →
          (bs'.segments.getD (i / 32).toNat 0).testBit j
            = ((bs.segments.getD (i / 32).toNat 0).testBit j
                && !decide ((i % 32).toNat = j)))
      ∧ (∀ u : Nat, u ≠ (i / 32).toNat → bs'.segments.getD u 0 = bs.segments.getD u 0)
      ∧ (∀ j : Int, 0 ≤ j → j < Len bs → j ≠ i → IsSet bs' j = IsSet bs j) := by
  obtain ⟨hd, hm⟩ := toNat_ediv_emod h0
  have hw := (index_inRange h0 h1).2
  rw [hd, hm]
  refine ⟨_, Unset_inRange h0 h1 hf, rfl, List.length_set _ _ _, getD_set_self hw _, ?_,
    fun u hu => getD_set_other (Ne.symm hu) _, ?_⟩
  · intro j hj
    simp only
    rw [getD_set_self hw, testBit_andNot32 _ hj]
  · intro j hj0 hj1 hne
    have hlen : Len (⟨bs.segments.set (i.toNat / 32)
        (andNot32 (bs.segments.getD (i.toNat / 32) 0) (2 ^ (i.toNat % 32)))⟩ : BitSet)
        = Len bs := Len_eq_of_length (List.length_set _ _ _)
    rw [IsSet_inRange hj0 (by rw [hlen]; exact hj1), IsSet_inRange hj0 hj1,
      bit_set_andNot32 hw]
    have : j.toNat ≠ i.toNat := by omega
    simp [this]

/-- Witness for C16_unset_frame: `Unset(35)` on a two-word bitmap. -/
theorem C16_unset_frame_witness :
    ∃ bs', Unset 1 ⟨[5, 12]⟩ 35 = some ⟨bs', .ok ()⟩
      ∧ bs'.segments
          = ([5, 12] : List Nat).set ((35 : Int) / 32).toNat
              (andNot32 (([5, 12] : List Nat).getD ((35 : Int) / 32).toNat 0)
                (2 ^ ((35 : Int) % 32).toNat))
      ∧ bs'.segments.length = ([5, 12] : List Nat).length
      ∧ bs'.segments.getD ((35 : Int) / 32).toNat 0
          = andNot32 (([5, 12] : List Nat).getD ((35 : Int) / 32).toNat 0)
              (2 ^ ((35 : Int) % 32).toNat)
      ∧ (∀ j : Nat, j < 32 →
          (bs'.segments.getD ((35 : Int) / 32).toNat 0).testBit j
            = ((([5, 12] : List Nat).getD ((35 : Int) / 32).toNat 0).testBit j
                && !decide (((35 : Int) % 32).toNat = j)))
      ∧ (∀ u : Nat, u ≠ ((35 : Int) / 32).toNat →
          bs'.segments.getD u 0 = ([5, 12] : List Nat).getD u 0)
      ∧ (∀ j : Int, 0 ≤ j → j < Len ⟨[5, 12]⟩ → j ≠ 35 →
          IsSet bs' j = IsSet ⟨[5, 12]⟩ j) :=
  C16_unset_frame 1 (by decide) ⟨[5, 12]⟩ 35 (by decide) (by decide)

/-- C17: for every array of words, `Count()` is the number of indices in
`[0, Len())` at which `IsSet` returns true, which is the sum of the population counts
of the words; so it lies between 0 and `Len()`. -/
theorem C17_count_is_number_of_set_indices (bs : BitSet) :
    Count bs
      = (((Finset.Ico (0 : Int) (Len bs)).filter (fun i => IsSet bs i = .ok true)).card : Int)
    ∧ Count bs = (bs.segments.map OnesCount32).sum
    ∧ 0 ≤ Count bs ∧ Count bs ≤ Len bs := by
  have hnd : ((setBits bs.segments).map (fun k : Nat => (k : Int))).Nodup := by
    rw [← ToSlice_toList]
    exact (ToSlice_sorted bs).nodup
  have hfin : (Finset.Ico (0 : Int) (Len bs)).filter (fun i => IsSet bs i = .ok true)
      = ((setBits bs.segments).map (fun k : Nat => (k : Int))).toFinset := by
    ext j
    rw [Finset.mem_filter, Finset.mem_Ico, List.mem_toFinset, ← ToSlice_toList, mem_ToSlice,
      IsSet_eq_ok_true_iff]
    constructor
    · exact fun h => h.2
    · rintro ⟨k, rfl, hk⟩
      have := bit_lt hk
      refine ⟨⟨Int.ofNat_nonneg k, ?_⟩, k, rfl, hk⟩
      unfold Len
      omega
  refine ⟨?_, Count_eq_sum bs, ?_, ?_⟩
  · rw [hfin, List.toFinset_card_of_nodup hnd, List.length_map, Count_eq]
  · rw [Count_eq]
    exact Int.ofNat_nonneg _
  · rw [Count_eq]
    have h := List.length_filter_le (bit bs.segments) (List.range (bs.segments.length * 32))
    rw [List.length_range] at h
    unfold setBits Len
    omega

/-- C18: for `i` in range, when nothing else writes the word between the load and
the compare-and-swap, the compare-and-swap of `Unset(i)` succeeds at the first
attempt: the loop body runs exactly once and `Unset(i)` returns, for every positive
bound on the number of iterations. -/
theorem C18_unset_terminates (fuel : Nat) (hf : 0 < fuel) (bs : BitSet) (i : Int)
    (h0 : 0 ≤ i) (h1 : i < Len bs) :
    ∃ bs', unsetLoop (i.tdiv 32) (i.tmod 32) fuel bs 0 = some (⟨bs', .ok ()⟩, 1)
      ∧ Unset fuel bs i = some ⟨bs', .ok ()⟩
      ∧ ∀ new : Nat,
          (atomicCompareAndSwap bs.segments (i / 32).toNat
            (atomicLoad bs.segments (i / 32).toNat) new).2 = true := by
  obtain ⟨f, rfl⟩ : ∃ f, fuel = f + 1 := ⟨fuel - 1, by omega⟩
  refine ⟨_, unsetLoop_inRange h0 h1 f 0, Unset_inRange h0 h1 hf, ?_⟩
  intro new
  simp [atomicCompareAndSwap, atomicLoad]

/-- Witness for C18_unset_terminates: `Unset(9)` with room for five iterations. -/
theorem C18_unset_terminates_witness :
    ∃ bs', unsetLoop ((9 : Int).tdiv 32) ((9 : Int).tmod 32) 5 ⟨[2147484168]⟩ 0
        = some (⟨bs', .ok ()⟩, 1)
      ∧ Unset 5 ⟨[2147484168]⟩ 9 = some ⟨bs', .ok ()⟩
      ∧ ∀ new : Nat,
          (atomicCompareAndSwap [2147484168] ((9 : Int) / 32).toNat
            (atomicLoad [2147484168] ((9 : Int) / 32).toNat) new).2 = true :=
  C18_unset_terminates 5 (by decide) ⟨[2147484168]⟩ 9 (by decide) (by decide)

/-- C19: for `i` in range, the word index `i / 32` is within the bounds of the word
array and the shift count `i % 32` lies in `[0, 32)`, so neither the index expression
nor the shift panics; the mask `1 << (i % 32)` is a non-zero 32-bit value with exactly
one bit set; and `Set(i)`, `Unset(i)` and `IsSet(i)` all return normally. -/
theorem C19_in_range_never_fails (fuel : Nat) (hf : 0 < fuel) (bs : BitSet) (i : Int)
    (h0 : 0 ≤ i) (h1 : i < Len bs) :
    (0 ≤ i.tdiv 32 ∧ i.tdiv 32 < bs.segments.length)
    ∧ (0 ≤ i.tmod 32 ∧ i.tmod 32 < 32)
    ∧ (∃ w, index bs.segments (i.tdiv 32) = .ok w ∧ w < bs.segments.length)
    ∧ (∃ m, mask (i.tmod 32) = .ok m ∧ m ≠ 0 ∧ m < 2 ^ 32 ∧ OnesCount32 m = 1
        ∧ ∀ j : Nat, m.testBit j = decide ((i.tmod 32).toNat = j))
    ∧ (Set bs i).ret = .ok ()
    ∧ (∃ bs', Unset fuel bs i = some ⟨bs', .ok ()⟩)
    ∧ ∃ b, IsSet bs i = .ok b := by
  have hd : i.tdiv 32 = i / 32 := Int.tdiv_eq_ediv h0 (by norm_num)
  have hm : i.tmod 32 = i % 32 := Int.tmod_eq_emod h0 (by norm_num)
  have hlen : i < (bs.segments.length : Int) * 32 := h1
  have hb : (i % 32).toNat = i.toNat % 32 := (toNat_ediv_emod h0).2
  have hb32 : i.toNat % 32 < 32 := Nat.mod_lt _ (by norm_num)
  refine ⟨by rw [hd]; omega, by rw [hm]; omega, ⟨_, (index_inRange h0 h1).1,
    (index_inRange h0 h1).2⟩, ⟨_, mask_nonneg h0, ?_, ?_, ?_, ?_⟩, ?_, ?_, ?_⟩
  · exact Nat.ne_of_gt (Nat.two_pow_pos _)
  · exact Nat.pow_lt_pow_right (by norm_num) hb32
  · exact OnesCount32_two_pow _ hb32
  · intro j
    rw [hm, hb, Nat.testBit_two_pow]
  · rw [Set_inRange h0 h1]
  · exact ⟨_, Unset_inRange h0 h1 hf⟩
  · exact ⟨_, IsSet_inRange h0 h1⟩

/-- Witness for C19_in_range_never_fails: index 63, the last one of a two-word
bitmap. -/
theorem C19_in_range_never_fails_witness :
    (0 ≤ (63 : Int).tdiv 32 ∧ (63 : Int).tdiv 32 < ([5, 12] : List Nat).length)
    ∧ (0 ≤ (63 : Int).tmod 32 ∧ (63 : Int).tmod 32 < 32)
    ∧ (∃ w, index [5, 12] ((63 : Int).tdiv 32) = .ok w ∧ w < ([5, 12] : List Nat).length)
    ∧ (∃ m, mask ((63 : Int).tmod 32) = .ok m ∧ m ≠ 0 ∧ m < 2 ^ 32 ∧ OnesCount32 m = 1
        ∧ ∀ j : Nat, m.testBit j = decide (((63 : Int).tmod 32).toNat = j))
    ∧ (Set ⟨[5, 12]⟩ 63).ret = .ok ()
    ∧ (∃ bs', Unset 1 ⟨[5, 12]⟩ 63 = some ⟨bs', .ok ()⟩)
    ∧ ∃ b, IsSet ⟨[5, 12]⟩ 63 = .ok b :=
  C19_in_range_never_fails 1 (by decide) ⟨[5, 12]⟩ 63 (by decide) (by decide)

/-- C20: on a bitmap of `uint32` words and for `i` in range: if `IsSet(i)` is false,
`Set(i)` followed by `Unset(i)` leaves the word array exactly as it was; if `IsSet(i)`
is true, `Unset(i)` followed by `Set(i)` does; and `Set(i)` twice is `Set(i)` once,
`Unset(i)` twice is `Unset(i)` once. -/
theorem C20_set_unset_inverse (fuel : Nat) (hf : 0 < fuel) (bs : BitSet)
    (hwf : wellFormed bs) (i : Int) (h0 : 0 ≤ i) (h1 : i < Len bs) :
    (IsSet bs i = .ok false →
      ∃ b1, Set bs i = ⟨b1, .ok ()⟩ ∧ Unset fuel b1 i = some ⟨bs, .ok ()⟩)
    ∧ (IsSet bs i = .ok true →
      ∃ b1, Unset fuel bs i = some ⟨b1, .ok ()⟩ ∧ Set b1 i = ⟨bs, .ok ()⟩)
    ∧ (∃ b1, Set bs i = ⟨b1, .ok ()⟩ ∧ Set b1 i = ⟨b1, .ok ()⟩)
    ∧ (∃ b1, Unset fuel bs i = some ⟨b1, .ok ()⟩ ∧ Unset fuel b1 i = some ⟨b1, .ok ()⟩) := by
  have hw := (index_inRange h0 h1).2
  have hb32 : i.toNat % 32 < 32 := Nat.mod_lt _ (by norm_num)
  have ha := getD_lt_of_wellFormed hwf (i.toNat / 32)
  have hlenS : Len (⟨atomicOr bs.segments (i.toNat / 32) (2 ^ (i.toNat % 32))⟩ : BitSet)
      = Len bs := Len_eq_of_length (atomicOr_length _ _ _)
  have hlenU : Len (⟨bs.segments.set (i.toNat / 32)
      (andNot32 (bs.segments.getD (i.toNat / 32) 0) (2 ^ (i.toNat % 32)))⟩ : BitSet)
      = Len bs := Len_eq_of_length (List.length_set _ _ _)
  have h1S : i < Len (⟨atomicOr bs.segments (i.toNat / 32) (2 ^ (i.toNat % 32))⟩ : BitSet) := by
    rw [hlenS]; exact h1
  have h1U : i < Len (⟨bs.segments.set (i.toNat / 32)
      (andNot32 (bs.segments.getD (i.toNat / 32) 0) (2 ^ (i.toNat % 32)))⟩ : BitSet) := by
    rw [hlenU]; exact h1
  refine ⟨?_, ?_, ?_, ?_⟩
  · intro hi
    rw [IsSet_inRange h0 h1] at hi
    have hbit : (bs.segments.getD (i.toNat / 32) 0).testBit (i.toNat % 32) = false := by
      injection hi
    refine ⟨_, Set_inRange h0 h1, ?_⟩
    rw [Unset_inRange h0 h1S hf]
    simp only [atomicOr]
    rw [getD_set_self hw, or_then_andNot32 ha hb32 hbit, List.set_set, set_getD_self]
  · intro hi
    rw [IsSet_inRange h0 h1] at hi
    have hbit : (bs.segments.getD (i.toNat / 32) 0).testBit (i.toNat % 32) = true := by
      injection hi
    refine ⟨_, Unset_inRange h0 h1 hf, ?_⟩
    rw [Set_inRange h0 h1U]
    simp only [atomicOr]
    rw [getD_set_self hw, andNot32_then_or ha hbit, List.set_set, set_getD_self]
  · refine ⟨_, Set_inRange h0 h1, ?_⟩
    rw [Set_inRange h0 h1S]
    simp only [atomicOr]
    rw [getD_set_self hw, or_idem, List.set_set]
  · refine ⟨_, Unset_inRange h0 h1 hf, ?_⟩
    rw [Unset_inRange h0 h1U hf]
    simp only
    rw [getD_set_self hw, andNot32_idem, List.set_set]

/-- Witness for C20_set_unset_inverse: index 35 (set) on a two-word bitmap; the
first part is shown at index 36 (clear) by the same theorem. -/
theorem C20_set_unset_inverse_witness :
    (∃ b1, Set ⟨[5, 12]⟩ 36 = ⟨b1, .ok ()⟩ ∧ Unset 1 b1 36 = some ⟨⟨[5, 12]⟩, .ok ()⟩)
    ∧ (∃ b1, Unset 1 ⟨[5, 12]⟩ 35 = some ⟨b1, .ok ()⟩ ∧ Set b1 35 = ⟨⟨[5, 12]⟩, .ok ()⟩)
    ∧ (∃ b1, Set ⟨[5, 12]⟩ 35 = ⟨b1, .ok ()⟩ ∧ Set b1 35 = ⟨b1, .ok ()⟩)
    ∧ (∃ b1, Unset 1 ⟨[5, 12]⟩ 35 = some ⟨b1, .ok ()⟩
        ∧ Unset 1 b1 35 = some ⟨b1, .ok ()⟩) :=
  ⟨(C20_set_unset_inverse 1 (by decide) ⟨[5, 12]⟩ (by decide) 36 (by decide) (by decide)).1
      (by decide),
    (C20_set_unset_inverse 1 (by decide) ⟨[5, 12]⟩ (by decide) 35 (by decide) (by decide)).2.1
      (by decide),
    (C20_set_unset_inverse 1 (by decide) ⟨[5, 12]⟩ (by decide) 35 (by decide) (by decide)).2.2⟩

end bitset
